import Mathlib

/-!
# Verification of the CaptionMaker core algorithms

Shallow embedding of the two algorithmic components of the repository:

* the scene classifier of `caption_generator.py`
  (`categorize_scene`, `advanced_scene_categorization`,
  `_extract_contextual_info`, embedded here as `extract_contextual_info`), and
* the sequence decoder of `model.py`
  (`generate_caption_simple`, `generate_caption_beam_search`).

Modelling conventions, chosen to mirror the Python source exactly:

* Python floats are idealised as exact rationals (`ℚ`); decimal literals such
  as `0.1`, `0.3`, `1e-8` become the exact rationals `1/10`, `3/10`,
  `1/100000000`.
* Python dicts that are only iterated in insertion order are association
  lists; `max(d, key=d.get)` is `firstMaxEntry` (first key attaining the
  maximal value, matching CPython's `max` on ties).
* Python's substring test `kw in pred` is `occursIn kw.data pred.data`
  (contiguous occurrence of `kw` in `pred`, the empty string occurring in
  everything, exactly as in Python).
* Captions are modelled as lists of words rather than space-joined strings;
  the join is injective because vocabulary words contain no spaces.
-/

/-- Does `needle` occur as a prefix of `hay`?  (Helper for Python's `in`.) -/
def beginsWith : List Char → List Char → Bool
  | [], _ => true
  | _ :: _, [] => false
  | a :: as, b :: bs => a = b && beginsWith as bs

/-- Python's substring operator `needle in hay` on strings, at the level of
character lists: `needle` occurs contiguously in `hay`. -/
def occursIn (needle : List Char) : List Char → Bool
  | [] => beginsWith needle []
  | c :: cs => beginsWith needle (c :: cs) || occursIn needle cs

/-- `sum(1 for pred in predictions if any(keyword in pred for keyword in keywords))`
from `categorize_scene` (caption_generator.py line 110). -/
def categoryCount (keywords : List String) (preds : List String) : Nat :=
  (preds.filter (fun p => keywords.any (fun k => occursIn k.data p.data))).length

/-- The per-category counts dict built by `categorize_scene`
(`category_scores`), in insertion order of the keyword table. -/
def categoryScores (table : List (String × List String)) (preds : List String) :
    List (String × Nat) :=
  table.map (fun ck => (ck.1, categoryCount ck.2 preds))

/-- CPython's `max(d, key=d.get)` over an association list: the first entry
whose value is maximal (earlier entries win ties).  Returns `none` on the
empty list (where Python would raise; callers guard with `if d:`). -/
def firstMaxEntry {β : Type} [LinearOrder β] :
    List (String × β) → Option (String × β)
  | [] => none
  | p :: ps =>
    match firstMaxEntry ps with
    | none => some p
    | some q => if q.2 > p.2 then some q else some p

/-- `categorize_scene` (caption_generator.py lines 106-120).  The keyword
table is the method's `self.scene_keywords`, passed explicitly. -/
def categorize_scene (table : List (String × List String)) (preds : List String) :
    String × ℚ :=
  match firstMaxEntry (categoryScores table preds) with
  | some cn => if cn.2 > 0 then (cn.1, 7/10) else ("general", 1/2)
  | none => ("general", 1/2)

/-- `position_weight = 1.0 - (i * 0.1)` (caption_generator.py line 716).
Note: the source has no `max(0, ...)` clamp. -/
def posWeight (i : Nat) : ℚ := 1 - (i : ℚ) * (1/10)

/-- `confidence_scores[i] if i < len(confidence_scores) else 0.1`
(caption_generator.py line 717, also line 752). -/
def confWeight (confs : List ℚ) (i : Nat) : ℚ := (confs[i]?).getD (1/10)

/-- The inner keyword loop of `advanced_scene_categorization` for one
prediction `pred` at rank `i`: each matching keyword adds
`position_weight * confidence_weight * 2`. -/
def predContribution (keywords : List String) (pred : String) (i : Nat)
    (confs : List ℚ) : ℚ :=
  keywords.foldl
    (fun acc k =>
      if occursIn k.data pred.data then acc + posWeight i * confWeight confs i * 2
      else acc) 0

/-- The `weighted_score` accumulator of `advanced_scene_categorization`
(caption_generator.py lines 713-721), summed over the predictions starting
at rank `i`. -/
def weightedScoreFrom (keywords : List String) (confs : List ℚ) :
    List String → Nat → ℚ
  | [], _ => 0
  | p :: ps, i => predContribution keywords p i confs + weightedScoreFrom keywords confs ps (i + 1)

/-- The `category_scores` dict of `advanced_scene_categorization`. -/
def advancedScores (table : List (String × List String)) (preds : List String)
    (confs : List ℚ) : List (String × ℚ) :=
  table.map (fun ck => (ck.1, weightedScoreFrom ck.2 confs preds 0))

/-- `advanced_scene_categorization` (caption_generator.py lines 708-732). -/
def advanced_scene_categorization (table : List (String × List String))
    (preds : List String) (confs : List ℚ) : String × ℚ :=
  match firstMaxEntry (advancedScores table preds confs) with
  | some cs => if cs.2 > 3/10 then (cs.1, min cs.2 1) else ("general", 1/2)
  | none => ("general", 1/2)

/-- `object_keywords` of `_extract_contextual_info` (caption_generator.py line 746). -/
def object_keywords : List String :=
  ["person", "dog", "cat", "car", "building", "tree", "flower", "food"]

/-- `environment_keywords` (line 747). -/
def environment_keywords : List String :=
  ["outdoor", "indoor", "beach", "forest", "city", "room", "kitchen"]

/-- `activity_keywords` (line 748). -/
def activity_keywords : List String :=
  ["playing", "running", "sitting", "walking", "eating", "sleeping"]

/-- `mood_keywords` (line 749). -/
def mood_keywords : List String :=
  ["sunset", "sunny", "cloudy", "bright", "dark", "colorful"]

/-- The `context` dict built by `_extract_contextual_info`. -/
structure ContextInfo where
  primary_objects : List String
  secondary_objects : List String
  environment : List String
  activity_indicators : List String
  mood_indicators : List String
deriving Repr, DecidableEq

/-- Python `pred.replace('_', ' ')`. -/
def underscoreToSpace (s : String) : String :=
  String.mk (s.data.map (fun c => if c = '_' then ' ' else c))

/-- `any(keyword in pred for keyword in kws)`. -/
def matchesAny (kws : List String) (p : String) : Bool :=
  kws.any (fun k => occursIn k.data p.data)

/-- The loop body of `_extract_contextual_info` over the (already truncated)
prediction list starting at rank `i` (caption_generator.py lines 751-767). -/
def extractLoop (confs : List ℚ) : List String → Nat → ContextInfo
  | [], _ => ⟨[], [], [], [], []⟩
  | p :: ps, i =>
    let rest := extractLoop confs ps (i + 1)
    let conf := confWeight confs i
    if conf > 1/10 then
      { primary_objects :=
          (if matchesAny object_keywords p ∧ conf > 3/10 then [underscoreToSpace p] else [])
            ++ rest.primary_objects
        secondary_objects :=
          (if matchesAny object_keywords p ∧ ¬ conf > 3/10 then [underscoreToSpace p] else [])
            ++ rest.secondary_objects
        environment :=
          (if matchesAny environment_keywords p then [underscoreToSpace p] else [])
            ++ rest.environment
        activity_indicators :=
          (if matchesAny activity_keywords p then [underscoreToSpace p] else [])
            ++ rest.activity_indicators
        mood_indicators :=
          (if matchesAny mood_keywords p then [underscoreToSpace p] else [])
            ++ rest.mood_indicators }
    else rest

/-- `_extract_contextual_info` (caption_generator.py lines 734-769); the
source name's leading underscore is dropped for Lean.  Note the
`predictions[:8]` truncation. -/
def extract_contextual_info (preds : List String) (confs : List ℚ) : ContextInfo :=
  extractLoop confs (preds.take 8) 0

/-- All five buckets of a `ContextInfo`, concatenated. -/
def allBuckets (c : ContextInfo) : List String :=
  c.primary_objects ++ c.secondary_objects ++ c.environment ++
    c.activity_indicators ++ c.mood_indicators

/-- A Keras `tokenizer.word_index`: word ↦ id pairs in insertion order. -/
abbrev WordIndex := List (String × Nat)

/-- `tokenizer.word_index.get(w, default)` without the default: dict lookup. -/
def wordIndexLookup (v : WordIndex) (w : String) : Option Nat :=
  (v.find? (fun p => p.1 == w)).map (fun p => p.2)

/-- `word_for_id` (model.py lines 74-79): scan `word_index.items()` in order,
return the first word whose index equals `i`, else `None`. -/
def word_for_id (v : WordIndex) (i : Nat) : Option String :=
  (v.find? (fun p => p.2 == i)).map (fun p => p.1)

/-- Keras `texts_to_sequences` on one text, at word level: words found in
`word_index` map to their ids, unknown words are skipped. -/
def textsToSequences (v : WordIndex) (ws : List String) : List Nat :=
  ws.filterMap (wordIndexLookup v)

/-- `self.tokenizer.word_index.get('startseq', 1)` (model.py line 87). -/
def startTok (v : WordIndex) : Nat := (wordIndexLookup v "startseq").getD 1

/-- `self.tokenizer.word_index.get('endseq', 2)` (model.py lines 94, 118). -/
def endTok (v : WordIndex) : Nat := (wordIndexLookup v "endseq").getD 2

/-- Keras `pad_sequences([s], maxlen=L)` defaults: pad with 0 at the front,
truncate from the front (model.py line 146). -/
def padPre (L : Nat) (s : List Nat) : List Nat :=
  if s.length ≤ L then List.replicate (L - s.length) 0 ++ s else s.drop (s.length - L)

/-- `seq + [0] * (self.max_length - len(seq))` (model.py line 99). -/
def padPost (L : Nat) (s : List Nat) : List Nat := s ++ List.replicate (L - s.length) 0

/-- The stepping function: `self.model.predict([image_features, padded_seq])`
with the fixed image features baked in — maps a padded id sequence to a
probability distribution over vocabulary ids. -/
def Step := List Nat → List ℚ

/-- Maximum value of a list of rationals (callers only use it on nonempty
lists; `np.argmax`/`np.argsort` raise or return empty on empty input). -/
def listMax : List ℚ → ℚ
  | [] => 0
  | [x] => x
  | x :: y :: ys => max x (listMax (y :: ys))

/-- `np.argmax`: the first index attaining the maximum (model.py line 150).
`np.argmax` raises on an empty array; the greedy decoder guards for that. -/
def argmaxIdx : List ℚ → Nat
  | [] => 0
  | [_] => 0
  | x :: y :: ys => if listMax (y :: ys) > x then argmaxIdx (y :: ys) + 1 else 0

/-- `np.argsort(predictions)` (model.py line 106), modelled as a stable
ascending sort of the indices by value.  numpy's default sort leaves the
order of ties unspecified; we fix the stable order (ties by ascending
index), which agrees with numpy whenever the relevant values are distinct. -/
def argsortIdx (l : List ℚ) : List Nat :=
  ((l.enum).insertionSort (fun a b => a.2 ≤ b.2)).map (fun p => p.1)

/-- Python slice `l[-k:]`: the last `k` elements — except that `l[-0:]` is
the whole list, a genuine quirk reproduced here. -/
def lastSlice (k : Nat) (l : List Nat) : List Nat :=
  if k = 0 then l else l.drop (l.length - k)

/-- The `1e-8` smoothing constant of `np.log(predictions[idx] + 1e-8)`
(model.py line 110). -/
def epsQ : ℚ := 1 / 100000000

/-- A beam-search candidate `[seq, score]` (model.py line 88).  The source
scores by cumulative log-probability `Σ log(p + 1e-8)` and uses the score
only for sorting; we store the product `Π (p + 1e-8)` instead, which the
strictly monotone `log` maps to the source's score, so the induced ordering
(including ties) is identical.  The initial score `0.0 = log 1` becomes `1`. -/
structure Cand where
  seq : List Nat
  score : ℚ
deriving Repr, DecidableEq

/-- One candidate's treatment inside the beam loop (model.py lines 93-111):
finished or full candidates are carried unchanged; otherwise the model is
queried and the top `w` ids (by `argsort`) each produce a child. -/
def expandCand (f : Step) (L w e : Nat) (c : Cand) : List Cand :=
  if c.seq.length ≥ L ∨ c.seq.getLastD 0 = e then [c]
  else
    let pred := f (padPost L c.seq)
    (lastSlice w (argsortIdx pred)).map
      (fun idx => ⟨c.seq ++ [idx], c.score * ((pred[idx]?).getD 0 + epsQ)⟩)

/-- `all_candidates.sort(key=lambda x: x[1], reverse=True)` (line 114):
Python's sort is stable, and `reverse=True` keeps ties in original order. -/
def beamSortDesc (l : List Cand) : List Cand :=
  l.insertionSort (fun a b => b.score ≤ a.score)

/-- One iteration of the beam loop: expand every candidate, sort all
resulting candidates by score descending, keep the top `w` (lines 91-115). -/
def beamStep (f : Step) (L w e : Nat) (seqs : List Cand) : List Cand :=
  (beamSortDesc (List.flatten (seqs.map (expandCand f L w e)))).take w

/-- `all(seq[0][-1] == endseq_id for seq in sequences)` (line 118). -/
def allEnded (e : Nat) (seqs : List Cand) : Bool :=
  seqs.all (fun c => c.seq.getLastD 0 == e)

/-- The `for _ in range(self.max_length)` beam loop with early break
(model.py lines 90-119), parameterised by remaining fuel. -/
def beamLoop (f : Step) (L w e : Nat) : Nat → List Cand → List Cand
  | 0, seqs => seqs
  | n + 1, seqs =>
    let next := beamStep f L w e seqs
    if allEnded e next then next else beamLoop f L w e n next

/-- The word-conversion loop (model.py lines 125-131): stop at an unknown id
or at `endseq`, skip `startseq`, collect everything else. -/
def seqToWords (v : WordIndex) : List Nat → List String
  | [] => []
  | i :: is =>
    match word_for_id v i with
    | none => []
    | some w =>
      if w = "endseq" then []
      else if w = "startseq" then seqToWords v is
      else w :: seqToWords v is

/-- Decoder failure modes.  `notReady` is the `ValueError` of model.py lines
83-84 and 137-138; `emptyDist` is the `ValueError` `np.argmax` raises on an
empty array (line 150); `emptyFrontier` is the `IndexError` of
`sequences[0]` on an empty frontier (line 122). -/
inductive DecodeErr where
  | notReady
  | emptyDist
  | emptyFrontier
deriving Repr, DecidableEq

/-- The final frontier of `generate_caption_beam_search`: `self.max_length`
is `L`, the initial frontier is `[[[start_token], 0.0]]` (line 88). -/
def beamFinal (v : WordIndex) (f : Step) (L w : Nat) : List Cand :=
  beamLoop f L w (endTok v) L [⟨[startTok v], 1⟩]

/-- `generate_caption_beam_search` (model.py lines 81-133).  The caption is
returned as its word list (the source joins with single spaces). -/
def generate_caption_beam_search (model : Option Step) (tokenizer : Option WordIndex)
    (L w : Nat) : Except DecodeErr (List String) :=
  match model, tokenizer with
  | some f, some v =>
    match beamFinal v f L w with
    | [] => .error .emptyFrontier
    | c :: _ => .ok (seqToWords v c.seq)
  | _, _ => .error .notReady

/-- The greedy loop of `generate_caption_simple` (model.py lines 143-158),
on the working text as a word list, with remaining fuel; also returns the
number of times the stepping function was invoked (ghost instrumentation,
it does not influence the result). -/
def greedyLoop (v : WordIndex) (f : Step) (L : Nat) :
    Nat → List String → Except DecodeErr (List String) × Nat
  | 0, inText => (.ok inText, 0)
  | n + 1, inText =>
    let pred := f (padPre L (textsToSequences v inText))
    if pred.isEmpty then (.error .emptyDist, 1)
    else
      match word_for_id v (argmaxIdx pred) with
      | none => (.ok inText, 1)
      | some w =>
        if w = "endseq" then (.ok inText, 1)
        else
          let r := greedyLoop v f L n (inText ++ [w])
          (r.1, r.2 + 1)

/-- The full greedy run: `in_text = 'startseq'`, loop `max_length` times. -/
def greedyRun (v : WordIndex) (f : Step) (L : Nat) :
    Except DecodeErr (List String) × Nat :=
  greedyLoop v f L L ["startseq"]

/-- `generate_caption_simple` (model.py lines 135-162).  The final
`in_text.replace('startseq', '').strip()` becomes, at word level, removing
every word equal to `startseq`. -/
def generate_caption_simple (model : Option Step) (tokenizer : Option WordIndex)
    (L : Nat) : Except DecodeErr (List String) :=
  match model, tokenizer with
  | some f, some v => (greedyRun v f L).1.map (fun ws => ws.filter (fun x => x != "startseq"))
  | _, _ => .error .notReady

/-- A one-hot probability distribution of length `n` concentrated at `i`. -/
def oneHot (n i : Nat) : List ℚ := (List.range n).map (fun j => if j = i then 1 else 0)

/-- `l` has a unique (strict) maximum at index `i`. -/
def uniqueMaxAt (l : List ℚ) (i : Nat) : Prop :=
  ∃ h : i < l.length,
    ∀ j, (hj : j < l.length) → j ≠ i → l.get ⟨j, hj⟩ < l.get ⟨i, h⟩

/-- A tiny two-word vocabulary used by several concrete instantiations. -/
def vSE : WordIndex := [("startseq", 1), ("endseq", 2)]

/-- The stepping function that always answers a one-hot distribution on the
END id of `vSE`. -/
def endStep : Step := fun _ => oneHot 3 2

/-- Proof infrastructure for the all-END stepping function: the candidate
`[startseq, endseq]` with its exact score `1 * (1 + 1e-8)` (as a product of
`(p + eps)` factors). -/
def endCand (v : WordIndex) : Cand := ⟨[startTok v, endTok v], 1 * (1 + epsQ)⟩

/-- Proof infrastructure: score bounds every beam candidate satisfies under
the all-END stepping function. -/
def oneHotCandOk (v : WordIndex) (c : Cand) : Prop :=
  0 ≤ c.score ∧ c.score ≤ 1 + epsQ ∧
    (c ≠ endCand v → c.score ≤ epsQ * (1 + epsQ)) ∧
    (c.seq.getLastD 0 ≠ endTok v → c.score ≤ epsQ)

/-- Proof infrastructure: the beam-frontier invariant under the all-END
stepping function: the frontier is headed by `endCand` and every member
satisfies the score bounds. -/
def oneHotInv (v : WordIndex) (F : List Cand) : Prop :=
  F.head? = some (endCand v) ∧ ∀ c ∈ F, oneHotCandOk v c

/-- Proof infrastructure: every word of `t` is an ordinary in-vocabulary
word (not the end marker). -/
def goodWords (v : WordIndex) (t : List String) : Prop :=
  ∀ w ∈ t, w ≠ "endseq" ∧ ∃ i, wordIndexLookup v w = some i

/-! ## Helper lemmas about the weighted score accumulator -/

theorem foldl_if_add (P : String → Bool) (c : ℚ) :
    ∀ (l : List String) (a : ℚ),
      l.foldl (fun acc k => if P k then acc + c else acc) a
        = a + ((l.filter P).length : ℚ) * c := by
  intro l
  induction l with
  | nil => intro a; simp
  | cons k ks ih =>
    intro a
    cases hk : P k with
    | true =>
      simp only [List.foldl_cons, hk, if_true, List.filter_cons, ih, List.length_cons]
      push_cast
      ring
    | false =>
      simp only [List.foldl_cons, hk, if_false, List.filter_cons, ih]
      push_cast
      ring

/-- The number of keywords of `kws` occurring in `p`. -/
theorem predContribution_eq (kws : List String) (p : String) (i : Nat) (confs : List ℚ) :
    predContribution kws p i confs
      = ((kws.filter (fun k => occursIn k.data p.data)).length : ℚ)
          * (posWeight i * confWeight confs i * 2) := by
  unfold predContribution
  rw [foldl_if_add]
  ring

theorem posWeight_nonneg_iff (i : Nat) : 0 ≤ posWeight i ↔ i ≤ 10 := by
  unfold posWeight
  rw [sub_nonneg]
  constructor
  · intro h
    have h2 : (i : ℚ) ≤ 10 := by linarith
    exact_mod_cast h2
  · intro h
    have h2 : (i : ℚ) ≤ 10 := by exact_mod_cast h
    linarith

theorem weightedScore_single_match (i : Nat) :
    ∀ (j : Nat) (confs : List ℚ),
      weightedScoreFrom ["dog"] confs (List.replicate i "x" ++ ["dog"]) j
        = posWeight (j + i) * confWeight confs (j + i) * 2 := by
  induction i with
  | zero =>
    intro j confs
    show weightedScoreFrom ["dog"] confs ["dog"] j = _
    have h2 : occursIn "dog".data "dog".data = true := by decide
    simp [weightedScoreFrom, predContribution_eq, h2, List.filter]
  | succ n ih =>
    intro j confs
    show weightedScoreFrom ["dog"] confs ("x" :: (List.replicate n "x" ++ ["dog"])) j = _
    have h1 : occursIn "dog".data "x".data = false := by decide
    rw [weightedScoreFrom, predContribution_eq, ih (j + 1)]
    simp [h1, List.filter]
    rw [show j + 1 + n = j + (n + 1) from by omega]

theorem weightedScoreFrom_mono (kws : List String) (confs confs2 : List ℚ) (i : Nat)
    (u v : ℚ) (hi : i ≤ 10)
    (hother : ∀ j, j ≠ i → confs2[j]? = confs[j]?)
    (hu : confs[i]? = some u) (hv : confs2[i]? = some v) (huv : u ≤ v) :
    ∀ (preds : List String) (j : Nat),
      weightedScoreFrom kws confs preds j ≤ weightedScoreFrom kws confs2 preds j := by
  intro preds
  induction preds with
  | nil => intro j; simp [weightedScoreFrom]
  | cons p ps ih =>
    intro j
    rw [weightedScoreFrom, weightedScoreFrom]
    refine add_le_add ?_ (ih (j + 1))
    rw [predContribution_eq, predContribution_eq]
    by_cases hj : j = i
    · subst hj
      have hcw : confWeight confs j = u := by simp [confWeight, hu]
      have hcw2 : confWeight confs2 j = v := by simp [confWeight, hv]
      rw [hcw, hcw2]
      have hpw : 0 ≤ posWeight j := (posWeight_nonneg_iff j).mpr hi
      have hm : (0:ℚ) ≤ ((kws.filter (fun k => occursIn k.data p.data)).length : ℚ) :=
        Nat.cast_nonneg _
      have hstep : posWeight j * u * 2 ≤ posWeight j * v * 2 := by nlinarith
      exact mul_le_mul_of_nonneg_left hstep hm
    · have hcw : confWeight confs2 j = confWeight confs j := by
        simp [confWeight, hother j hj]
      rw [hcw]

/-! ## Helper lemmas about firstMaxEntry -/

theorem firstMaxEntry_eq_none {β : Type} [LinearOrder β] :
    ∀ l : List (String × β), firstMaxEntry l = none → l = [] := by
  intro l h
  cases l with
  | nil => rfl
  | cons p ps =>
    cases h2 : firstMaxEntry ps with
    | none => simp [firstMaxEntry, h2] at h
    | some r =>
      simp only [firstMaxEntry, h2] at h
      split at h <;> simp at h

theorem firstMaxEntry_mem {β : Type} [LinearOrder β] :
    ∀ (l : List (String × β)) (q : String × β), firstMaxEntry l = some q → q ∈ l := by
  intro l
  induction l with
  | nil => intro q h; simp [firstMaxEntry] at h
  | cons p ps ih =>
    intro q h
    cases h2 : firstMaxEntry ps with
    | none =>
      simp only [firstMaxEntry, h2] at h
      simp at h
      simp [h]
    | some r =>
      simp only [firstMaxEntry, h2] at h
      split at h
      · simp at h
        exact List.mem_cons_of_mem p (ih q (h ▸ h2))
      · simp at h
        simp [h]

theorem firstMaxEntry_le {β : Type} [LinearOrder β] :
    ∀ (l : List (String × β)) (q : String × β), firstMaxEntry l = some q →
      ∀ p ∈ l, p.2 ≤ q.2 := by
  intro l
  induction l with
  | nil => intro q h; simp [firstMaxEntry] at h
  | cons p ps ih =>
    intro q h r hr
    cases h2 : firstMaxEntry ps with
    | none =>
      have hps : ps = [] := firstMaxEntry_eq_none ps h2
      subst hps
      simp only [firstMaxEntry] at h
      simp at h hr
      rw [hr, ← h]
    | some m =>
      simp only [firstMaxEntry, h2] at h
      rcases List.mem_cons.mp hr with hrp | hrps
      · split at h
        · rename_i hgt
          simp at h
          rw [hrp, ← h]
          exact le_of_lt hgt
        · simp at h
          rw [hrp, ← h]
      · split at h
        · simp at h
          exact ih q (h ▸ h2) r hrps
        · rename_i hngt
          simp at h
          have hm := ih m h2 r hrps
          rw [← h]
          exact le_trans hm (not_lt.mp hngt)

/-! ## Helper lemmas for contextual extraction -/

theorem mem_if_singleton {c : Prop} [Decidable c] {w x : String}
    (h : w ∈ if c then [x] else []) : w = x := by
  split at h
  · simpa using h
  · simp at h

theorem extractLoop_mem (confs : List ℚ) :
    ∀ (l : List String) (i : Nat) (w : String),
      w ∈ allBuckets (extractLoop confs l i) → ∃ p, p ∈ l ∧ w = underscoreToSpace p := by
  intro l
  induction l with
  | nil => intro i w h; simp [extractLoop, allBuckets] at h
  | cons p ps ih =>
    intro i w h
    have step : w ∈ allBuckets (extractLoop confs ps (i + 1)) →
        ∃ p2, p2 ∈ p :: ps ∧ w = underscoreToSpace p2 := by
      intro hmem
      rcases ih (i + 1) w hmem with ⟨q, hq, hw⟩
      exact ⟨q, List.mem_cons_of_mem p hq, hw⟩
    simp only [extractLoop] at h
    by_cases hc : confWeight confs i > 1/10
    · rw [if_pos hc] at h
      simp only [allBuckets, List.mem_append] at h
      rcases h with ((((h | h) | (h | h)) | (h | h)) | (h | h)) | (h | h)
      all_goals
        first
        | exact ⟨p, List.mem_cons_self p ps, mem_if_singleton h⟩
        | · apply step
            simp only [allBuckets, List.mem_append]
            tauto
    · rw [if_neg hc] at h
      exact step h

/-! ## Claims C1, C4, C5, C6, C10 -/

/-- C1 (counterexample): the spec's concrete scenario is wrong on the code.
`'dog'` is not a substring of `'golden_retriever'`, so only the rank-1
prediction matches; the weighted score is `0.09`, below the `0.3` threshold,
and the result is `("general", 0.5)`, not `("animal", 1.0)`. -/
theorem C1_counterexample :
    advanced_scene_categorization [("animal", ["dog"])] ["golden_retriever", "dog"]
        [9/10, 1/20] = ("general", 1/2) ∧
    advanced_scene_categorization [("animal", ["dog"])] ["golden_retriever", "dog"]
        [9/10, 1/20] ≠ ("animal", 1) := by
  have h1 : occursIn "dog".data "golden_retriever".data = false := by decide
  have h2 : occursIn "dog".data "dog".data = true := by decide
  norm_num [advanced_scene_categorization, advancedScores, weightedScoreFrom,
    predContribution, firstMaxEntry, posWeight, confWeight, h1, h2]

/-- C1 (amended): for predictions `[("golden_retriever", 0.9), ("dog", 0.05)]`
and keyword table `{'animal': ['dog']}`, only the rank-1 prediction `"dog"`
matches, the weighted score is `0.9 * 0.05 * 2 = 0.09`, and since
`0.09 ≤ 0.3` the result is `("general", 0.5)`. -/
theorem C1_amended :
    weightedScoreFrom ["dog"] [9/10, 1/20] ["golden_retriever", "dog"] 0 = 9/100 ∧
    advanced_scene_categorization [("animal", ["dog"])] ["golden_retriever", "dog"]
        [9/10, 1/20] = ("general", 1/2) := by
  have h1 : occursIn "dog".data "golden_retriever".data = false := by decide
  have h2 : occursIn "dog".data "dog".data = true := by decide
  norm_num [advanced_scene_categorization, advancedScores, weightedScoreFrom,
    predContribution, firstMaxEntry, posWeight, confWeight, h1, h2]

/-- C4 (counterexample): increasing a matching prediction's confidence CAN
decrease the category's weighted score, because the position weight is
negative from rank 11 on.  Here the only match sits at rank 11; raising its
confidence from `0` to `1` drops the score from `0` to `-0.2`. -/
theorem C4_counterexample :
    (0:ℚ) ≤ 1 ∧
    weightedScoreFrom ["dog"] ((List.replicate 12 (0:ℚ)).set 11 1)
        (List.replicate 11 "x" ++ ["dog"]) 0 <
      weightedScoreFrom ["dog"] (List.replicate 12 (0:ℚ))
        (List.replicate 11 "x" ++ ["dog"]) 0 := by
  have h1 : occursIn "dog".data "x".data = false := by decide
  have h2 : occursIn "dog".data "dog".data = true := by decide
  norm_num [weightedScoreFrom, predContribution, posWeight, confWeight,
    List.replicate, h1, h2]

/-- C4 (amended): the weighted score of `advanced_scene_categorization` is
monotone in a single prediction's confidence provided that prediction sits
at rank `i ≤ 10`, where the position weight `1.0 - i*0.1` is nonnegative
(from rank 11 on the position weight is negative and the dependence is
antitone). -/
theorem C4_amended (kws preds : List String) (confs confs2 : List ℚ) (i : Nat)
    (u v : ℚ) (hi : i ≤ 10)
    (hother : ∀ j, j ≠ i → confs2[j]? = confs[j]?)
    (hu : confs[i]? = some u) (hv : confs2[i]? = some v) (huv : u ≤ v) :
    weightedScoreFrom kws confs preds 0 ≤ weightedScoreFrom kws confs2 preds 0 :=
  weightedScoreFrom_mono kws confs confs2 i u v hi hother hu hv huv preds 0

/-- Witness for C4 (amended), at keyword list `["dog"]`, predictions
`["dog"]`, confidences `[1/2]` raised to `[3/4]` at rank 0. -/
theorem C4_witness :
    weightedScoreFrom ["dog"] [1/2] ["dog"] 0 ≤ weightedScoreFrom ["dog"] [3/4] ["dog"] 0 :=
  C4_amended ["dog"] ["dog"] [1/2] [3/4] 0 (1/2) (3/4) (by norm_num)
    (fun j hj => by cases j with | zero => exact absurd rfl hj | succ k => rfl)
    rfl rfl (by norm_num)

/-- C5 (counterexample): the position weight is NOT `max(0, 1.0 - i*0.1)`;
the source never clamps it, so a keyword match at rank 11 contributes with
weight `-0.1`, making the accumulated score negative, which the claimed
clamped weight could never do. -/
theorem C5_counterexample :
    weightedScoreFrom ["dog"] (List.replicate 12 (1:ℚ))
        (List.replicate 11 "x" ++ ["dog"]) 0 = -(1/5) ∧
    weightedScoreFrom ["dog"] (List.replicate 12 (1:ℚ))
        (List.replicate 11 "x" ++ ["dog"]) 0 < 0 := by
  have h1 : occursIn "dog".data "x".data = false := by decide
  have h2 : occursIn "dog".data "dog".data = true := by decide
  norm_num [weightedScoreFrom, predContribution, posWeight, confWeight,
    List.replicate, h1, h2]

/-- C5 (amended): the position weight applied at rank `i` is exactly
`1.0 - i*0.1`, with no clamping: each prediction's contribution is
`(#matching keywords) * (posWeight i * c_i * 2)`, for a lone match at rank
`i` the accumulated score is `posWeight i * c_i * 2`, and the weight is
nonnegative iff `i ≤ 10` (so it IS negative for ranks `≥ 11`). -/
theorem C5_amended (i : Nat) (confs : List ℚ) :
    (∀ (kws : List String) (p : String),
      predContribution kws p i confs
        = ((kws.filter (fun k => occursIn k.data p.data)).length : ℚ)
            * (posWeight i * confWeight confs i * 2)) ∧
    weightedScoreFrom ["dog"] confs (List.replicate i "x" ++ ["dog"]) 0
      = posWeight i * confWeight confs i * 2 ∧
    (0 ≤ posWeight i ↔ i ≤ 10) :=
  ⟨fun kws p => predContribution_eq kws p i confs,
   by simpa using weightedScore_single_match i 0 confs,
   posWeight_nonneg_iff i⟩

/-- C6 (counterexample): `categorize_scene` matches keywords
case-SENSITIVELY (its caller lowercases labels before calling it): the
claimed case-insensitive counting would classify `["DOG"]` as `animal`,
but the code returns `("general", 0.5)` for `["DOG"]` and `("animal", 0.7)`
only for `["dog"]`. -/
theorem C6_counterexample :
    categorize_scene [("animal", ["dog"])] ["DOG"] = ("general", 1/2) ∧
    categorize_scene [("animal", ["dog"])] ["dog"] = ("animal", 7/10) := by
  have h1 : occursIn "dog".data "DOG".data = false := by decide
  have h2 : occursIn "dog".data "dog".data = true := by decide
  norm_num [categorize_scene, categoryScores, categoryCount, firstMaxEntry,
    List.filter, h1, h2]

/-- C6 (amended): `categorize_scene` counts, per category, how many
predictions contain at least one of the category's keywords as a
case-SENSITIVE substring; on the empty prediction list it returns
`("general", 0.5)` exactly; if every category's count is `0` it returns
`("general", 0.5)`; otherwise it returns a maximal-count category of the
table with fixed confidence `0.7` regardless of margin.  It is a total
function (never raises). -/
theorem C6_amended (table : List (String × List String)) (preds : List String) :
    categorize_scene table [] = ("general", 1/2) ∧
    ((∀ c kws, (c, kws) ∈ table → categoryCount kws preds = 0) →
      categorize_scene table preds = ("general", 1/2)) ∧
    (∀ c kws, (c, kws) ∈ table → 0 < categoryCount kws preds →
      (categorize_scene table preds).2 = 7/10 ∧
      ∃ b bkws, (b, bkws) ∈ table ∧ (categorize_scene table preds).1 = b ∧
        ∀ c2 kws2, (c2, kws2) ∈ table →
          categoryCount kws2 preds ≤ categoryCount bkws preds) := by
  refine ⟨?_, ?_, ?_⟩
  · cases h : firstMaxEntry (categoryScores table []) with
    | none => simp [categorize_scene, h]
    | some cn =>
      have hmem := firstMaxEntry_mem _ cn h
      rcases List.mem_map.mp hmem with ⟨ck, _, heq⟩
      have h0 : cn.2 = 0 := by
        rw [← heq]
        simp [categoryCount]
      simp [categorize_scene, h, h0]
  · intro hall
    cases h : firstMaxEntry (categoryScores table preds) with
    | none => simp [categorize_scene, h]
    | some cn =>
      have hmem := firstMaxEntry_mem _ cn h
      rcases List.mem_map.mp hmem with ⟨ck, hck, heq⟩
      have h0 : cn.2 = 0 := by
        rw [← heq]
        exact hall ck.1 ck.2 hck
      simp [categorize_scene, h, h0]
  · intro c kws hmem hpos
    have hscore : (c, categoryCount kws preds) ∈ categoryScores table preds :=
      List.mem_map.mpr ⟨(c, kws), hmem, rfl⟩
    cases h : firstMaxEntry (categoryScores table preds) with
    | none =>
      rw [firstMaxEntry_eq_none _ h] at hscore
      simp at hscore
    | some bn =>
      have hb := firstMaxEntry_mem _ bn h
      rcases List.mem_map.mp hb with ⟨⟨b, bkws⟩, hbt, hbeq⟩
      have hle := firstMaxEntry_le _ bn h (c, categoryCount kws preds) hscore
      have hbnpos : 0 < bn.2 := lt_of_lt_of_le hpos hle
      refine ⟨?_, b, bkws, hbt, ?_, ?_⟩
      · simp [categorize_scene, h, hbnpos]
      · have hbn1 : bn.1 = b := by rw [← hbeq]
        simp [categorize_scene, h, hbnpos, hbn1]
      · intro c2 kws2 h2
        have hsc2 : (c2, categoryCount kws2 preds) ∈ categoryScores table preds :=
          List.mem_map.mpr ⟨(c2, kws2), h2, rfl⟩
        have hle2 := firstMaxEntry_le _ bn h _ hsc2
        rw [← hbeq] at hle2
        exact hle2

/-- Witness for C6 (amended), at the table `{'animal': ['dog']}` and
predictions `["dog"]`. -/
theorem C6_witness :
    categorize_scene [("animal", ["dog"])] [] = ("general", 1/2) ∧
    (categorize_scene [("animal", ["dog"])] ["dog"]).2 = 7/10 := by
  have h2 : occursIn "dog".data "dog".data = true := by decide
  exact ⟨(C6_amended [("animal", ["dog"])] ["dog"]).1,
    ((C6_amended [("animal", ["dog"])] ["dog"]).2.2 "animal" ["dog"]
      (by simp) (by norm_num [categoryCount, List.filter, h2])).1⟩

/-- C10 (confirmed): contextual extraction only looks at the first 8 ranked
predictions: the result is unchanged by truncating the input to 8 entries,
and every extracted word is the (underscore-to-space) image of one of the
first 8 predictions — a prediction at rank ≥ 8 never contributes. -/
theorem C10_extract_first8 (preds : List String) (confs : List ℚ) :
    extract_contextual_info preds confs = extract_contextual_info (preds.take 8) confs ∧
    ∀ w, w ∈ allBuckets (extract_contextual_info preds confs) →
      ∃ p, p ∈ preds.take 8 ∧ w = underscoreToSpace p := by
  constructor
  · unfold extract_contextual_info
    simp [List.take_take]
  · intro w h
    exact extractLoop_mem confs (preds.take 8) 0 w h

/-- Witness for C10, at predictions `["dog"]` with confidence `[1]`. -/
theorem C10_witness :
    ∃ p, p ∈ (["dog"] : List String).take 8 ∧ "dog" = underscoreToSpace p := by
  apply (C10_extract_first8 ["dog"] [1]).2 "dog"
  have hm : matchesAny object_keywords "dog" = true := by decide
  have hu : underscoreToSpace "dog" = "dog" := by decide
  norm_num [extract_contextual_info, extractLoop, allBuckets, confWeight, hm, hu]

example :
    generate_caption_simple (some (fun _ => [0, 0, 0, 1])) (some [("startseq", 1), ("endseq", 2), ("a", 3)]) 3
      = .ok ["a", "a", "a"] := by
  have h1 : textsToSequences [("startseq", 1), ("endseq", 2), ("a", 3)] ["startseq"] = [1] := by decide
  have h2 : textsToSequences [("startseq", 1), ("endseq", 2), ("a", 3)] ["startseq", "a"] = [1, 3] := by decide
  have h3 : textsToSequences [("startseq", 1), ("endseq", 2), ("a", 3)] ["startseq", "a", "a"] = [1, 3, 3] := by decide
  have hw : word_for_id [("startseq", 1), ("endseq", 2), ("a", 3)] 3 = some "a" := by decide
  have ha : argmaxIdx [0, 0, 0, 1] = 3 := by norm_num [argmaxIdx, listMax, max_def]
  norm_num [generate_caption_simple, greedyRun, greedyLoop, padPre,
    h1, h2, h3, hw, ha, List.replicate]
  simp [Except.map, List.filter]

example :
    generate_caption_beam_search (some (fun _ => [0, 0, 0, 1])) (some [("startseq", 1), ("endseq", 2), ("a", 3)]) 3 1
      = .ok ["a", "a"] := by
  have hs : startTok [("startseq", 1), ("endseq", 2), ("a", 3)] = 1 := by decide
  have he : endTok [("startseq", 1), ("endseq", 2), ("a", 3)] = 2 := by decide
  have hw : seqToWords [("startseq", 1), ("endseq", 2), ("a", 3)] [1, 3, 3] = ["a", "a"] := by decide
  have ha : argsortIdx [0, 0, 0, 1] = [0, 1, 2, 3] := by
    norm_num [argsortIdx, List.insertionSort, List.orderedInsert, List.enum,
      List.enumFrom]
  norm_num [generate_caption_beam_search, beamFinal, beamLoop, beamStep,
    beamSortDesc, expandCand, allEnded, lastSlice, epsQ, padPost,
    hs, he, hw, ha, List.insertionSort, List.replicate]

/-! ## Helper lemmas for the decoders -/

theorem greedyLoop_succ_empty (v : WordIndex) (f : Step) (L n : Nat) (t : List String)
    (hp : (f (padPre L (textsToSequences v t))).isEmpty = true) :
    greedyLoop v f L (n + 1) t = (.error .emptyDist, 1) := by
  simp [greedyLoop, hp]

theorem greedyLoop_succ_none (v : WordIndex) (f : Step) (L n : Nat) (t : List String)
    (hp : (f (padPre L (textsToSequences v t))).isEmpty = false)
    (hw : word_for_id v (argmaxIdx (f (padPre L (textsToSequences v t)))) = none) :
    greedyLoop v f L (n + 1) t = (.ok t, 1) := by
  simp [greedyLoop, hp, hw]

theorem greedyLoop_succ_end (v : WordIndex) (f : Step) (L n : Nat) (t : List String)
    (hp : (f (padPre L (textsToSequences v t))).isEmpty = false)
    (hw : word_for_id v (argmaxIdx (f (padPre L (textsToSequences v t)))) = some "endseq") :
    greedyLoop v f L (n + 1) t = (.ok t, 1) := by
  simp [greedyLoop, hp, hw]

theorem greedyLoop_succ_word (v : WordIndex) (f : Step) (L n : Nat) (t : List String)
    (w : String)
    (hp : (f (padPre L (textsToSequences v t))).isEmpty = false)
    (hw : word_for_id v (argmaxIdx (f (padPre L (textsToSequences v t)))) = some w)
    (hne : w ≠ "endseq") :
    greedyLoop v f L (n + 1) t
      = ((greedyLoop v f L n (t ++ [w])).1, (greedyLoop v f L n (t ++ [w])).2 + 1) := by
  simp [greedyLoop, hp, hw, hne]

theorem greedyLoop_no_notReady (v : WordIndex) (f : Step) (L : Nat) :
    ∀ (n : Nat) (t : List String), (greedyLoop v f L n t).1 ≠ .error .notReady := by
  intro n
  induction n with
  | zero => intro t; simp [greedyLoop]
  | succ m ih =>
    intro t
    by_cases hp : (f (padPre L (textsToSequences v t))).isEmpty
    · rw [greedyLoop_succ_empty v f L m t hp]
      simp
    · cases hw : word_for_id v (argmaxIdx (f (padPre L (textsToSequences v t)))) with
      | none =>
        rw [greedyLoop_succ_none v f L m t (by simpa using hp) hw]
        simp
      | some w =>
        by_cases hend : w = "endseq"
        · rw [hend] at hw
          rw [greedyLoop_succ_end v f L m t (by simpa using hp) hw]
          simp
        · rw [greedyLoop_succ_word v f L m t w (by simpa using hp) hw hend]
          exact ih (t ++ [w])

/-- Every element of the new frontier is produced by expanding an element of
the previous frontier. -/
theorem beamStep_mem (f : Step) (L w e : Nat) (seqs : List Cand) (d : Cand)
    (hd : d ∈ beamStep f L w e seqs) : ∃ c ∈ seqs, d ∈ expandCand f L w e c := by
  unfold beamStep at hd
  have h1 : d ∈ beamSortDesc (List.flatten (seqs.map (expandCand f L w e))) :=
    List.mem_of_mem_take hd
  have h2 : d ∈ List.flatten (seqs.map (expandCand f L w e)) :=
    ((List.perm_insertionSort _ _).mem_iff).mp h1
  rcases List.mem_flatten.mp h2 with ⟨lc, hlc, hdlc⟩
  rcases List.mem_map.mp hlc with ⟨c, hc, heq⟩
  exact ⟨c, hc, heq ▸ hdlc⟩

theorem expandCand_length (f : Step) (L w e : Nat) (c : Cand)
    (hc : c.seq.length ≤ max L 1) :
    ∀ d ∈ expandCand f L w e c, d.seq.length ≤ max L 1 := by
  intro d hd
  unfold expandCand at hd
  split at hd
  · simp at hd
    rw [hd]
    exact hc
  · rename_i hcond
    push_neg at hcond
    rcases List.mem_map.mp hd with ⟨idx, _, heq⟩
    rw [← heq]
    simp only [List.length_append, List.length_cons, List.length_nil]
    have h1 : c.seq.length < L := hcond.1
    have h2 : L ≤ max L 1 := Nat.le_max_left L 1
    omega

theorem beamLoop_length_inv (f : Step) (L w e : Nat) :
    ∀ (n : Nat) (seqs : List Cand),
      (∀ c ∈ seqs, c.seq.length ≤ max L 1) →
      ∀ c ∈ beamLoop f L w e n seqs, c.seq.length ≤ max L 1 := by
  intro n
  induction n with
  | zero => intro seqs h c hc; exact h c hc
  | succ m ih =>
    intro seqs h c hc
    simp only [beamLoop] at hc
    have hnext : ∀ d ∈ beamStep f L w e seqs, d.seq.length ≤ max L 1 := by
      intro d hd
      rcases beamStep_mem f L w e seqs d hd with ⟨c2, hc2, hd2⟩
      exact expandCand_length f L w e c2 (h c2 hc2) d hd2
    split at hc
    · exact hnext c hc
    · exact ih (beamStep f L w e seqs) hnext c hc

theorem beamFinal_length (v : WordIndex) (f : Step) (L w : Nat) :
    ∀ c ∈ beamFinal v f L w, c.seq.length ≤ max L 1 := by
  apply beamLoop_length_inv
  intro c hc
  simp at hc
  rw [hc]
  simp [Nat.le_max_right]

theorem seqToWords_length_le (v : WordIndex) :
    ∀ s : List Nat, (seqToWords v s).length ≤ s.length := by
  intro s
  induction s with
  | nil => simp [seqToWords]
  | cons i is ih =>
    rw [seqToWords]
    cases word_for_id v i with
    | none => simp
    | some w =>
      by_cases h1 : w = "endseq"
      · simp [h1]
      · by_cases h2 : w = "startseq"
        · simp only [h1, if_false, h2, if_true]
          exact le_trans ih (by simp)
        · simp only [h1, if_false, h2, List.length_cons]
          exact Nat.succ_le_succ ih

/-- Call count and result shape of the greedy loop: at most `n` invocations
of the stepping function, and on success the final text extends the initial
text by at most `n` words. -/
theorem greedyLoop_spec (v : WordIndex) (f : Step) (L : Nat) :
    ∀ (n : Nat) (t : List String),
      (greedyLoop v f L n t).2 ≤ n ∧
      ∀ ws, (greedyLoop v f L n t).1 = .ok ws →
        ws.length ≤ t.length + n ∧ ∃ ext, ws = t ++ ext := by
  intro n
  induction n with
  | zero =>
    intro t
    refine ⟨le_refl 0, ?_⟩
    intro ws h
    simp [greedyLoop] at h
    rw [← h]
    exact ⟨by omega, [], by simp⟩
  | succ m ih =>
    intro t
    by_cases hp : (f (padPre L (textsToSequences v t))).isEmpty
    · rw [greedyLoop_succ_empty v f L m t hp]
      refine ⟨by omega, ?_⟩
      intro ws h
      simp at h
    · cases hw : word_for_id v (argmaxIdx (f (padPre L (textsToSequences v t)))) with
      | none =>
        rw [greedyLoop_succ_none v f L m t (by simpa using hp) hw]
        refine ⟨by omega, ?_⟩
        intro ws h
        simp at h
        rw [← h]
        exact ⟨by omega, [], by simp⟩
      | some w =>
        by_cases hend : w = "endseq"
        · rw [hend] at hw
          rw [greedyLoop_succ_end v f L m t (by simpa using hp) hw]
          refine ⟨by omega, ?_⟩
          intro ws h
          simp at h
          rw [← h]
          exact ⟨by omega, [], by simp⟩
        · rw [greedyLoop_succ_word v f L m t w (by simpa using hp) hw hend]
          rcases ih (t ++ [w]) with ⟨hcount, hok⟩
          refine ⟨by omega, ?_⟩
          intro ws h
          rcases hok ws h with ⟨hlen, ext, hext⟩
          refine ⟨by simp at hlen; omega, [w] ++ ext, ?_⟩
          rw [hext]
          simp

/-- Concrete evaluation used by several witnesses: with `vSE` and `endStep`,
the beam loop (width 1, budget 5) finishes immediately with the single
candidate `[startseq, endseq]`. -/
theorem endStep_beamFinal_eval :
    beamFinal vSE endStep 5 1 = [⟨[1, 2], 1 * (1 + epsQ)⟩] := by
  have hs : startTok vSE = 1 := by decide
  have he : endTok vSE = 2 := by decide
  have hh : endStep (padPost 5 [1]) = [0, 0, 1] := by decide
  have ha : argsortIdx [0, 0, 1] = [0, 1, 2] := by
    norm_num [argsortIdx, List.insertionSort, List.orderedInsert, List.enum,
      List.enumFrom]
  norm_num [beamFinal, beamLoop, beamStep, beamSortDesc, expandCand, allEnded,
    lastSlice, epsQ, hs, he, hh, ha, List.insertionSort]

/-- Concrete evaluation used by several witnesses: with `vSE` and `endStep`,
the greedy loop stops at once (one stepping call), leaving just `startseq`. -/
theorem endStep_greedy_eval :
    greedyRun vSE endStep 5 = (.ok ["startseq"], 1) := by
  have hp : (endStep (padPre 5 (textsToSequences vSE ["startseq"]))).isEmpty = false := by decide
  have hw : word_for_id vSE (argmaxIdx (endStep (padPre 5 (textsToSequences vSE ["startseq"])))) = some "endseq" := by
    have h1 : endStep (padPre 5 (textsToSequences vSE ["startseq"])) = [0, 0, 1] := by decide
    have h2 : argmaxIdx [0, 0, 1] = 2 := by norm_num [argmaxIdx, listMax, max_def]
    rw [h1, h2]
    decide
  rw [greedyRun]
  rw [greedyLoop_succ_end vSE endStep 5 4 ["startseq"] hp hw]

/-! ## Claims C2, C3 (counterexample), C7, C8 -/

/-- C2 (counterexample): decode does NOT fail when the decoded sequence has
zero words after stripping control tokens — there is no `EmptyOutput` error
anywhere in `model.py`; both modes return an empty caption successfully
(here under a stepping function that immediately emits END). -/
theorem C2_counterexample :
    generate_caption_simple (some endStep) (some vSE) 5 = .ok [] ∧
    generate_caption_beam_search (some endStep) (some vSE) 5 1 = .ok [] := by
  constructor
  · rw [generate_caption_simple, endStep_greedy_eval]
    simp [Except.map, List.filter]
  · rw [generate_caption_beam_search, endStep_beamFinal_eval]
    simp [seqToWords, word_for_id, List.find?, vSE]

/-- C2 (amended): when the decoded sequence contains zero words after
stripping control tokens, decode in both modes returns the empty word
sequence as an ordinary success (`ok []`), not an error; no `EmptyOutput`
failure path exists in the code. -/
theorem C2_amended (f : Step) (v : WordIndex) (L w : Nat) :
    (∀ c rest, beamFinal v f L w = c :: rest → seqToWords v c.seq = [] →
      generate_caption_beam_search (some f) (some v) L w = .ok []) ∧
    (∀ ws, (greedyRun v f L).1 = .ok ws →
      ws.filter (fun x => x != "startseq") = [] →
      generate_caption_simple (some f) (some v) L = .ok []) := by
  constructor
  · intro c rest hb hw
    simp [generate_caption_beam_search, hb, hw]
  · intro ws hr hf
    simp [generate_caption_simple, hr, Except.map, hf]

/-- Witness for C2 (amended), at `vSE` and the always-END stepping function. -/
theorem C2_witness :
    generate_caption_beam_search (some endStep) (some vSE) 5 1 = .ok [] ∧
    generate_caption_simple (some endStep) (some vSE) 5 = .ok [] := by
  refine ⟨(C2_amended endStep vSE 5 1).1 ⟨[1, 2], 1 * (1 + epsQ)⟩ []
      endStep_beamFinal_eval (by decide), ?_⟩
  apply (C2_amended endStep vSE 5 1).2 ["startseq"]
  · rw [endStep_greedy_eval]
  · decide

/-- C3 (counterexample): beam search with `beam_width = 1` is NOT always
identical to greedy decode.  With a stepping function that always prefers
the ordinary word `"a"`, greedy (`max_length = 3`) emits 3 words, while beam
search caps the candidate at 3 ids INCLUDING the start token and emits only
2 words. -/
theorem C3_counterexample :
    generate_caption_simple (some (fun _ => [0, 0, 0, 1]))
        (some [("startseq", 1), ("endseq", 2), ("a", 3)]) 3 = .ok ["a", "a", "a"] ∧
    generate_caption_beam_search (some (fun _ => [0, 0, 0, 1]))
        (some [("startseq", 1), ("endseq", 2), ("a", 3)]) 3 1 = .ok ["a", "a"] := by
  constructor
  · have h1 : textsToSequences [("startseq", 1), ("endseq", 2), ("a", 3)] ["startseq"] = [1] := by decide
    have h2 : textsToSequences [("startseq", 1), ("endseq", 2), ("a", 3)] ["startseq", "a"] = [1, 3] := by decide
    have h3 : textsToSequences [("startseq", 1), ("endseq", 2), ("a", 3)] ["startseq", "a", "a"] = [1, 3, 3] := by decide
    have hw : word_for_id [("startseq", 1), ("endseq", 2), ("a", 3)] 3 = some "a" := by decide
    have ha : argmaxIdx [0, 0, 0, 1] = 3 := by norm_num [argmaxIdx, listMax, max_def]
    norm_num [generate_caption_simple, greedyRun, greedyLoop, padPre,
      h1, h2, h3, hw, ha, List.replicate]
    simp [Except.map, List.filter]
  · have hs : startTok [("startseq", 1), ("endseq", 2), ("a", 3)] = 1 := by decide
    have he : endTok [("startseq", 1), ("endseq", 2), ("a", 3)] = 2 := by decide
    have hw : seqToWords [("startseq", 1), ("endseq", 2), ("a", 3)] [1, 3, 3] = ["a", "a"] := by decide
    have ha : argsortIdx [0, 0, 0, 1] = [0, 1, 2, 3] := by
      norm_num [argsortIdx, List.insertionSort, List.orderedInsert, List.enum,
        List.enumFrom]
    norm_num [generate_caption_beam_search, beamFinal, beamLoop, beamStep,
      beamSortDesc, expandCand, allEnded, lastSlice, epsQ, padPost,
      hs, he, hw, ha, List.insertionSort, List.replicate]

/-- C7 (confirmed): decode (both modes) fails with `NotReady` if and only if
the stepping function (model) or the vocabulary (tokenizer) is absent; the
guard sits before any decoding work, so when it fires nothing else of the
decoder is reached (the result is `NotReady` regardless of every other
input), and when both are present `NotReady` can no longer occur. -/
theorem C7_decode_notReady_iff (model : Option Step) (tokenizer : Option WordIndex)
    (L w : Nat) :
    (generate_caption_beam_search model tokenizer L w = .error .notReady ↔
      model = none ∨ tokenizer = none) ∧
    (generate_caption_simple model tokenizer L = .error .notReady ↔
      model = none ∨ tokenizer = none) := by
  constructor
  · cases model with
    | none => simp [generate_caption_beam_search]
    | some f =>
      cases tokenizer with
      | none => simp [generate_caption_beam_search]
      | some v =>
        simp only [generate_caption_beam_search]
        cases h : beamFinal v f L w with
        | nil => simp
        | cons c rest => simp
  · cases model with
    | none => simp [generate_caption_simple]
    | some f =>
      cases tokenizer with
      | none => simp [generate_caption_simple]
      | some v =>
        simp only [generate_caption_simple]
        cases hr : (greedyRun v f L).1 with
        | ok ws => simp [Except.map]
        | error e =>
          have hne := greedyLoop_no_notReady v f L L ["startseq"]
          rw [show greedyLoop v f L L ["startseq"] = greedyRun v f L from rfl, hr] at hne
          simp [Except.map]
          intro hcontra
          rw [hcontra] at hne
          exact hne rfl

/-- C8 (counterexample): with `max_length = 0` and a vocabulary that has no
`'startseq'` key (so the start id 1 decodes to an ordinary word), beam
search returns 1 word — more than `L = 0` tokens.  The loop body never runs,
yet `sequences[0]` is the initial candidate `[start_token]`, whose decoded
word is not stripped. -/
theorem C8_counterexample :
    generate_caption_beam_search (some (fun _ => [])) (some [("x", 1)]) 0 1 = .ok ["x"] ∧
    0 < (["x"] : List String).length := by
  constructor
  · have hs : startTok [("x", 1)] = 1 := by decide
    have hw : seqToWords [("x", 1)] [1] = ["x"] := by decide
    simp [generate_caption_beam_search, beamFinal, beamLoop, hs, hw]
  · simp

/-- C8 (amended): greedy decode returns at most `L` words and calls the
stepping function at most `L` times; beam search returns at most `L` words
whenever `L ≥ 1` (at `L = 0` it can return the decoded start token, one
word), and every candidate in the final frontier has at most `max L 1` ids
— since each expansion consumes exactly one stepping call of its parent and
appends exactly one id to a lineage that starts with the single start
token, a lineage of final length `k` used exactly `k - 1 ≤ L` stepping
calls. -/
theorem C8_amended (f : Step) (v : WordIndex) (L w : Nat) :
    (∀ ws, generate_caption_simple (some f) (some v) L = .ok ws → ws.length ≤ L) ∧
    (greedyRun v f L).2 ≤ L ∧
    (∀ c ∈ beamFinal v f L w, c.seq.length ≤ max L 1) ∧
    (1 ≤ L → ∀ ws, generate_caption_beam_search (some f) (some v) L w = .ok ws →
      ws.length ≤ L) := by
  have hspec := greedyLoop_spec v f L L ["startseq"]
  refine ⟨?_, hspec.1, beamFinal_length v f L w, ?_⟩
  · intro ws hws
    simp only [generate_caption_simple] at hws
    cases hr : (greedyRun v f L).1 with
    | error e =>
      rw [hr] at hws
      simp [Except.map] at hws
    | ok ws0 =>
      rw [hr] at hws
      simp [Except.map] at hws
      rcases hspec.2 ws0 hr with ⟨hlen, ext, hext⟩
      rw [← hws, hext]
      have hfil : List.filter (fun x => x != "startseq") (["startseq"] ++ ext)
          = List.filter (fun x => x != "startseq") ext := by
        simp [List.filter]
      rw [hfil]
      have h2 := List.length_filter_le (fun x => x != "startseq") ext
      have h3 : ext.length ≤ L := by
        rw [hext] at hlen
        simp at hlen
        omega
      omega
  · intro hL ws hws
    simp only [generate_caption_beam_search] at hws
    cases hb : beamFinal v f L w with
    | nil =>
      rw [hb] at hws
      simp at hws
    | cons c rest =>
      rw [hb] at hws
      simp at hws
      have hc := beamFinal_length v f L w c (by rw [hb]; simp)
      have hmax : max L 1 = L := by omega
      rw [hmax] at hc
      rw [← hws]
      exact le_trans (seqToWords_length_le v c.seq) hc

/-- Witness for C8 (amended), at `vSE`, `endStep`, `L = 5`, `w = 1`. -/
theorem C8_witness :
    (greedyRun vSE endStep 5).2 ≤ 5 ∧ ([] : List String).length ≤ 5 := by
  refine ⟨(C8_amended endStep vSE 5 1).2.1, ?_⟩
  apply (C8_amended endStep vSE 5 1).2.2.2 (by norm_num) []
  rw [generate_caption_beam_search, endStep_beamFinal_eval]
  simp [seqToWords, word_for_id, List.find?, vSE]

/-! ## Maximum / argsort lemmas -/

theorem listMax_cons (x : ℚ) (l : List ℚ) (h : l ≠ []) :
    listMax (x :: l) = max x (listMax l) := by
  cases l with
  | nil => exact absurd rfl h
  | cons y ys => rfl

theorem le_listMax_of_mem : ∀ (l : List ℚ) (a : ℚ), a ∈ l → a ≤ listMax l := by
  intro l
  induction l with
  | nil => intro a ha; simp at ha
  | cons x xs ih =>
    intro a ha
    cases xs with
    | nil =>
      simp at ha
      rw [ha]
      exact le_refl x
    | cons y ys =>
      rw [listMax_cons x (y :: ys) (by simp)]
      rcases List.mem_cons.mp ha with h | h
      · rw [h]
        exact le_max_left _ _
      · exact le_trans (ih a h) (le_max_right _ _)

theorem argmaxIdx_lt : ∀ l : List ℚ, l ≠ [] → argmaxIdx l < l.length := by
  intro l
  induction l with
  | nil => intro h; exact absurd rfl h
  | cons x xs ih =>
    intro _
    cases xs with
    | nil => simp [argmaxIdx]
    | cons y ys =>
      rw [argmaxIdx]
      split
      · have := ih (by simp)
        simp only [List.length_cons] at this ⊢
        omega
      · simp

theorem argmaxIdx_getElem : ∀ (l : List ℚ), l ≠ [] →
    l[argmaxIdx l]? = some (listMax l) := by
  intro l
  induction l with
  | nil => intro h; exact absurd rfl h
  | cons x xs ih =>
    intro _
    cases xs with
    | nil => simp [argmaxIdx, listMax]
    | cons y ys =>
      rw [listMax_cons x (y :: ys) (by simp)]
      by_cases hgt : listMax (y :: ys) > x
      · have h1 : argmaxIdx (x :: y :: ys) = argmaxIdx (y :: ys) + 1 := by
          rw [argmaxIdx, if_pos hgt]
        rw [h1, max_eq_right (le_of_lt hgt)]
        rw [List.getElem?_cons_succ]
        exact ih (by simp)
      · have h1 : argmaxIdx (x :: y :: ys) = 0 := by
          rw [argmaxIdx, if_neg hgt]
        rw [h1, max_eq_left (le_of_not_lt hgt)]
        rfl

theorem argmaxIdx_of_uniqueMax (l : List ℚ) (i : Nat) (h : uniqueMaxAt l i) :
    argmaxIdx l = i := by
  rcases h with ⟨hi, hstrict⟩
  have hne : l ≠ [] := by
    intro hl
    rw [hl] at hi
    simp at hi
  by_contra hcontra
  have h1 := argmaxIdx_getElem l hne
  have hlt := argmaxIdx_lt l hne
  have h2 : l.get ⟨argmaxIdx l, hlt⟩ < l.get ⟨i, hi⟩ :=
    hstrict (argmaxIdx l) hlt hcontra
  have h3 : l.get ⟨i, hi⟩ ≤ listMax l := le_listMax_of_mem l _ (List.get_mem l i hi)
  have h4 : l[argmaxIdx l]? = some (l.get ⟨argmaxIdx l, hlt⟩) := by
    rw [List.getElem?_eq_getElem hlt]
    simp [List.get_eq_getElem]
  rw [h4] at h1
  have h5 : l.get ⟨argmaxIdx l, hlt⟩ = listMax l := by
    injection h1
  rw [h5] at h2
  exact absurd (lt_of_lt_of_le h2 h3) (lt_irrefl _)

theorem sorted_rel_getLast {α : Type} (r : α → α → Prop) [IsRefl α r] :
    ∀ (l : List α) (a : α), List.Sorted r l → l.getLast? = some a → ∀ b ∈ l, r b a := by
  intro l
  induction l with
  | nil => intro a _ h; simp at h
  | cons x xs ih =>
    intro a hs hl b hb
    cases xs with
    | nil =>
      simp at hl hb
      rw [hb, ← hl]
      exact refl_of r x
    | cons y ys =>
      rw [List.getLast?_cons_cons] at hl
      rcases List.mem_cons.mp hb with hbx | hbxs
      · have ha : a ∈ y :: ys := List.mem_of_mem_getLast? hl
        rw [hbx]
        exact List.rel_of_sorted_cons hs a ha
      · exact ih a (List.sorted_cons.mp hs).2 hl b hbxs

theorem argsortIdx_mem_lt (l : List ℚ) (j : Nat) (hj : j ∈ argsortIdx l) :
    j < l.length := by
  unfold argsortIdx at hj
  rcases List.mem_map.mp hj with ⟨p, hp, hfst⟩
  have hp2 : p ∈ l.enum := ((List.perm_insertionSort _ _).mem_iff).mp hp
  have hget : l[p.1]? = some p.2 := List.mk_mem_enum_iff_getElem?.mp hp2
  rw [← hfst]
  by_contra hge
  rw [List.getElem?_eq_none_iff.mpr (by omega)] at hget
  exact Option.noConfusion hget

theorem argsortIdx_getLast_of_uniqueMax (l : List ℚ) (i : Nat) (h : uniqueMaxAt l i) :
    (argsortIdx l).getLast? = some i := by
  haveI hTot : IsTotal (Nat × ℚ) (fun a b => a.2 ≤ b.2) := ⟨fun a b => le_total a.2 b.2⟩
  haveI hTrans : IsTrans (Nat × ℚ) (fun a b => a.2 ≤ b.2) :=
    ⟨fun a b c h1 h2 => le_trans h1 h2⟩
  haveI hRefl : IsRefl (Nat × ℚ) (fun a b => a.2 ≤ b.2) := ⟨fun a => le_refl a.2⟩
  rcases h with ⟨hi, hstrict⟩
  unfold argsortIdx
  rw [List.getLast?_map]
  cases hq : ((l.enum).insertionSort (fun a b => a.2 ≤ b.2)).getLast? with
  | none =>
    rw [List.getLast?_eq_none_iff] at hq
    have hlen : ((l.enum).insertionSort (fun a b => a.2 ≤ b.2)).length = l.enum.length :=
      (List.perm_insertionSort _ _).length_eq
    rw [hq] at hlen
    simp at hlen
    omega
  | some q =>
    have hq_mem : q ∈ (l.enum).insertionSort (fun a b => a.2 ≤ b.2) :=
      List.mem_of_mem_getLast? hq
    have hq_enum : q ∈ l.enum := ((List.perm_insertionSort _ _).mem_iff).mp hq_mem
    have hq_get : l[q.1]? = some q.2 := List.mk_mem_enum_iff_getElem?.mp hq_enum
    have hrel := sorted_rel_getLast (fun (a b : Nat × ℚ) => a.2 ≤ b.2) _ q
      (List.sorted_insertionSort _ _) hq
    have hi_enum : (i, l.get ⟨i, hi⟩) ∈ l.enum := by
      apply List.mk_mem_enum_iff_getElem?.mpr
      rw [List.getElem?_eq_getElem hi]
      simp [List.get_eq_getElem]
    have hi_sorted : (i, l.get ⟨i, hi⟩) ∈ (l.enum).insertionSort (fun a b => a.2 ≤ b.2) :=
      ((List.perm_insertionSort _ _).mem_iff).mpr hi_enum
    have hle : l.get ⟨i, hi⟩ ≤ q.2 := hrel _ hi_sorted
    have hq1lt : q.1 < l.length := by
      by_contra hge
      rw [List.getElem?_eq_none_iff.mpr (by omega)] at hq_get
      exact Option.noConfusion hq_get
    by_cases hqi : q.1 = i
    · simp [hqi]
    · have hlt : l.get ⟨q.1, hq1lt⟩ < l.get ⟨i, hi⟩ := hstrict q.1 hq1lt hqi
      have hq2 : l.get ⟨q.1, hq1lt⟩ = q.2 := by
        rw [List.getElem?_eq_getElem hq1lt] at hq_get
        have hh := Option.some.inj hq_get
        simpa [List.get_eq_getElem] using hh
      rw [hq2] at hlt
      exact absurd (lt_of_lt_of_le hlt hle) (lt_irrefl _)

theorem mem_lastSlice_getLast (k : Nat) (l : List Nat) (a : Nat)
    (h : l.getLast? = some a) : a ∈ lastSlice k l := by
  unfold lastSlice
  split
  · exact List.mem_of_mem_getLast? h
  · rename_i hk
    have hne : l ≠ [] := by
      intro hnil
      rw [hnil] at h
      simp at h
    have hlen : 1 ≤ l.length := List.length_pos.mpr hne
    rw [List.getLast?_eq_getElem?] at h
    have hmem : (l.drop (l.length - k))[l.length - 1 - (l.length - k)]? = some a := by
      rw [List.getElem?_drop]
      rw [show l.length - k + (l.length - 1 - (l.length - k)) = l.length - 1 from by omega]
      exact h
    exact List.getElem?_mem hmem

theorem drop_length_sub_one : ∀ (l : List Nat) (a : Nat), l.getLast? = some a →
    l.drop (l.length - 1) = [a] := by
  intro l
  induction l with
  | nil => intro a h; simp at h
  | cons x xs ih =>
    intro a h
    cases xs with
    | nil =>
      simp at h
      simp [h]
    | cons y ys =>
      rw [List.getLast?_cons_cons] at h
      have h2 := ih a h
      simp only [List.length_cons, Nat.add_sub_cancel] at h2 ⊢
      rw [List.drop_succ_cons]
      exact h2

theorem lastSlice_one (l : List Nat) (a : Nat) (h : l.getLast? = some a) :
    lastSlice 1 l = [a] := by
  unfold lastSlice
  rw [if_neg (by omega : ¬ (1:Nat) = 0)]
  exact drop_length_sub_one l a h

theorem head?_take {α : Type} (w : Nat) (hw : 1 ≤ w) (l : List α) :
    (l.take w).head? = l.head? := by
  cases l with
  | nil => simp
  | cons x xs =>
    cases w with
    | zero => omega
    | succ n => simp

/-- If `x` is a strict maximum of `l` by score, the descending stable sort
puts it first. -/
theorem beamSortDesc_head_of_strict_max (l : List Cand) (x : Cand) (hx : x ∈ l)
    (hstrict : ∀ y ∈ l, y ≠ x → y.score < x.score) :
    (beamSortDesc l).head? = some x := by
  haveI hTot : IsTotal Cand (fun a b => b.score ≤ a.score) := ⟨fun a b => le_total b.score a.score⟩
  haveI hTrans : IsTrans Cand (fun a b => b.score ≤ a.score) :=
    ⟨fun a b c h1 h2 => le_trans h2 h1⟩
  unfold beamSortDesc
  cases hs : l.insertionSort (fun a b => b.score ≤ a.score) with
  | nil =>
    have hlen : (l.insertionSort (fun a b => b.score ≤ a.score)).length = l.length :=
      (List.perm_insertionSort _ _).length_eq
    rw [hs] at hlen
    simp at hlen
    have hnil : l = [] := List.length_eq_zero.mp hlen.symm
    rw [hnil] at hx
    simp at hx
  | cons hd tl =>
    have hsort : List.Sorted (fun (a b : Cand) => b.score ≤ a.score) (hd :: tl) := by
      rw [← hs]
      exact List.sorted_insertionSort _ _
    have hx_sorted : x ∈ hd :: tl := by
      rw [← hs]
      exact ((List.perm_insertionSort _ _).mem_iff).mpr hx
    have hhd_l : hd ∈ l := by
      have : hd ∈ l.insertionSort (fun a b => b.score ≤ a.score) := by
        rw [hs]
        simp
      exact ((List.perm_insertionSort _ _).mem_iff).mp this
    rcases List.mem_cons.mp hx_sorted with hxh | hxt
    · simp [hxh]
    · by_cases hhx : hd = x
      · simp [hhx]
      · have h1 : hd.score < x.score := hstrict hd hhd_l hhx
        have h2 : x.score ≤ hd.score := List.rel_of_sorted_cons hsort x hxt
        exact absurd (lt_of_le_of_lt h2 h1) (lt_irrefl _)

/-! ## One-hot distribution lemmas -/

theorem oneHot_length (n i : Nat) : (oneHot n i).length = n := by
  simp [oneHot]

theorem oneHot_getElem (n i j : Nat) (hj : j < n) :
    (oneHot n i)[j]? = some (if j = i then 1 else 0) := by
  simp [oneHot, List.getElem?_map, List.getElem?_range, hj]

theorem oneHot_uniqueMax (n i : Nat) (hi : i < n) : uniqueMaxAt (oneHot n i) i := by
  refine ⟨by rw [oneHot_length]; exact hi, ?_⟩
  intro j hj hne
  have hjn : j < n := by rw [oneHot_length] at hj; exact hj
  have h1 : (oneHot n i).get ⟨j, hj⟩ = if j = i then 1 else 0 := by
    simp [List.get_eq_getElem, oneHot, List.getElem_map, List.getElem_range]
  have h2 : (oneHot n i).get ⟨i, by rw [oneHot_length]; exact hi⟩ = if i = i then (1:ℚ) else 0 := by
    simp [List.get_eq_getElem, oneHot, List.getElem_map, List.getElem_range]
  rw [h1, h2, if_neg hne, if_pos rfl]
  norm_num

theorem oneHot_not_isEmpty (n i : Nat) (hn : 0 < n) : (oneHot n i).isEmpty = false := by
  have h : (oneHot n i).length = n := oneHot_length n i
  cases he : oneHot n i with
  | nil =>
    rw [he] at h
    simp at h
    omega
  | cons x xs => simp

theorem argmaxIdx_oneHot (n i : Nat) (hi : i < n) : argmaxIdx (oneHot n i) = i :=
  argmaxIdx_of_uniqueMax _ i (oneHot_uniqueMax n i hi)

theorem lastSlice_subset (k : Nat) (l : List Nat) : lastSlice k l ⊆ l := by
  unfold lastSlice
  split
  · exact fun x hx => hx
  · exact List.drop_subset _ _

/-! ## Beam-search behaviour under the all-END stepping function -/

theorem epsQ_pos : 0 < epsQ := by norm_num [epsQ]

theorem epsQ_lt_one : epsQ < 1 := by norm_num [epsQ]

/-- Expansion preserves the score bounds under the all-END stepping
function. -/
theorem expandCand_oneHotOk (v : WordIndex) (f : Step) (L w V : Nat)
    (hV : endTok v < V) (hf : ∀ p, f p = oneHot V (endTok v))
    (c : Cand) (hc : oneHotCandOk v c) :
    ∀ d ∈ expandCand f L w (endTok v) c, oneHotCandOk v d := by
  intro d hd
  unfold expandCand at hd
  split at hd
  · simp at hd
    rw [hd]
    exact hc
  · rename_i hcond
    push_neg at hcond
    rcases List.mem_map.mp hd with ⟨idx, hidx, heq⟩
    have hlast : c.seq.getLastD 0 ≠ endTok v := hcond.2
    rcases hc with ⟨hc0, hc1, _, hc3⟩
    have hcs : c.score ≤ epsQ := hc3 hlast
    have hidx2 : idx ∈ argsortIdx (f (padPost L c.seq)) := lastSlice_subset _ _ hidx
    rw [hf (padPost L c.seq)] at hidx2 heq
    have hlt : idx < V := by
      have := argsortIdx_mem_lt _ idx hidx2
      rw [oneHot_length] at this
      exact this
    have hval : ((oneHot V (endTok v))[idx]?).getD 0 = if idx = endTok v then 1 else 0 := by
      rw [oneHot_getElem V (endTok v) idx hlt]
      rfl
    have heps := epsQ_pos
    have heps1 := epsQ_lt_one
    rw [← heq]
    unfold oneHotCandOk
    dsimp only
    rw [hval, List.getLastD_concat]
    by_cases hie : idx = endTok v
    · rw [if_pos hie]
      refine ⟨by nlinarith, by nlinarith, fun _ => by nlinarith, fun habs => ?_⟩
      exact absurd hie habs
    · rw [if_neg hie]
      refine ⟨by nlinarith, by nlinarith, fun _ => by nlinarith, fun _ => by nlinarith⟩

/-- The `endCand` candidate is carried unchanged by expansion. -/
theorem expandCand_endCand (v : WordIndex) (f : Step) (L w : Nat) :
    expandCand f L w (endTok v) (endCand v) = [endCand v] := by
  unfold expandCand
  rw [if_pos]
  right
  simp [endCand, List.getLastD_concat]

/-- One beam iteration preserves the invariant. -/
theorem beamStep_oneHotInv (v : WordIndex) (f : Step) (L w V : Nat)
    (hw1 : 1 ≤ w) (hV : endTok v < V) (hf : ∀ p, f p = oneHot V (endTok v))
    (F : List Cand) (hF : oneHotInv v F) :
    oneHotInv v (beamStep f L w (endTok v) F) := by
  rcases hF with ⟨hhead, hok⟩
  have hE_mem : endCand v ∈ F := List.mem_of_mem_head? hhead
  have hE_children : endCand v ∈ List.flatten (F.map (expandCand f L w (endTok v))) := by
    apply List.mem_flatten.mpr
    exact ⟨[endCand v], List.mem_map.mpr ⟨endCand v, hE_mem,
      (expandCand_endCand v f L w)⟩, by simp⟩
  have hchildren_ok : ∀ d ∈ List.flatten (F.map (expandCand f L w (endTok v))),
      oneHotCandOk v d := by
    intro d hd
    rcases List.mem_flatten.mp hd with ⟨lc, hlc, hdlc⟩
    rcases List.mem_map.mp hlc with ⟨c, hcF, heq⟩
    exact expandCand_oneHotOk v f L w V hV hf c (hok c hcF) d (heq ▸ hdlc)
  have hstrict : ∀ d ∈ List.flatten (F.map (expandCand f L w (endTok v))),
      d ≠ endCand v → d.score < (endCand v).score := by
    intro d hd hne
    have h1 := (hchildren_ok d hd).2.2.1 hne
    have heps := epsQ_pos
    have heps1 := epsQ_lt_one
    show d.score < 1 * (1 + epsQ)
    nlinarith
  constructor
  · unfold beamStep
    rw [head?_take w hw1]
    exact beamSortDesc_head_of_strict_max _ _ hE_children hstrict
  · intro c hc
    rcases beamStep_mem f L w (endTok v) F c hc with ⟨c2, hc2, hcc⟩
    exact expandCand_oneHotOk v f L w V hV hf c2 (hok c2 hc2) c hcc

/-- The beam loop preserves the invariant. -/
theorem beamLoop_oneHotInv (v : WordIndex) (f : Step) (L w V : Nat)
    (hw1 : 1 ≤ w) (hV : endTok v < V) (hf : ∀ p, f p = oneHot V (endTok v)) :
    ∀ (n : Nat) (F : List Cand), oneHotInv v F →
      oneHotInv v (beamLoop f L w (endTok v) n F) := by
  intro n
  induction n with
  | zero => intro F hF; exact hF
  | succ m ih =>
    intro F hF
    simp only [beamLoop]
    split
    · exact beamStep_oneHotInv v f L w V hw1 hV hf F hF
    · exact ih _ (beamStep_oneHotInv v f L w V hw1 hV hf F hF)

/-- The first beam iteration from the initial frontier establishes the
invariant (when the budget allows an expansion at all). -/
theorem beamStep_init (v : WordIndex) (f : Step) (L w V : Nat)
    (hw1 : 1 ≤ w) (hV : endTok v < V) (hf : ∀ p, f p = oneHot V (endTok v))
    (hL : 2 ≤ L) (hse : startTok v ≠ endTok v) :
    oneHotInv v (beamStep f L w (endTok v) [⟨[startTok v], 1⟩]) := by
  have hexp : expandCand f L w (endTok v) ⟨[startTok v], 1⟩
      = (lastSlice w (argsortIdx (oneHot V (endTok v)))).map
          (fun idx => ⟨[startTok v] ++ [idx],
            1 * (((oneHot V (endTok v))[idx]?).getD 0 + epsQ)⟩) := by
    unfold expandCand
    rw [if_neg]
    · rw [hf]
    · dsimp only
      push_neg
      constructor
      · simp only [List.length_cons, List.length_nil]
        omega
      · simpa using hse
  have hch : List.flatten ([(⟨[startTok v], 1⟩ : Cand)].map (expandCand f L w (endTok v)))
      = expandCand f L w (endTok v) ⟨[startTok v], 1⟩ := by
    simp
  have hE_mem : endCand v ∈ expandCand f L w (endTok v) ⟨[startTok v], 1⟩ := by
    rw [hexp]
    apply List.mem_map.mpr
    refine ⟨endTok v, ?_, ?_⟩
    · exact mem_lastSlice_getLast w _ _
        (argsortIdx_getLast_of_uniqueMax _ _ (oneHot_uniqueMax V (endTok v) hV))
    · rw [oneHot_getElem V (endTok v) (endTok v) hV, if_pos rfl]
      simp [endCand]
  have hok : ∀ d ∈ expandCand f L w (endTok v) ⟨[startTok v], 1⟩, oneHotCandOk v d := by
    intro d hd
    rw [hexp] at hd
    rcases List.mem_map.mp hd with ⟨idx, hidx, heq⟩
    have hlt : idx < V := by
      have := argsortIdx_mem_lt _ idx (lastSlice_subset _ _ hidx)
      rw [oneHot_length] at this
      exact this
    have heps := epsQ_pos
    have heps1 := epsQ_lt_one
    rw [← heq]
    unfold oneHotCandOk
    dsimp only
    rw [oneHot_getElem V (endTok v) idx hlt]
    by_cases hie : idx = endTok v
    · rw [if_pos hie]
      dsimp only [Option.getD]
      refine ⟨by nlinarith, by nlinarith, fun habs => ?_, fun habs => ?_⟩
      · exfalso
        apply habs
        rw [hie]
        simp [endCand]
      · exfalso
        rw [List.getLastD_concat] at habs
        exact habs hie
    · rw [if_neg hie]
      dsimp only [Option.getD]
      rw [List.getLastD_concat]
      refine ⟨by nlinarith, by nlinarith, fun _ => by nlinarith, fun _ => by nlinarith⟩
  have hstrict : ∀ d ∈ List.flatten ([(⟨[startTok v], 1⟩ : Cand)].map
        (expandCand f L w (endTok v))), d ≠ endCand v → d.score < (endCand v).score := by
    intro d hd hne
    rw [hch] at hd
    have h1 := (hok d hd).2.2.1 hne
    have heps := epsQ_pos
    have heps1 := epsQ_lt_one
    show d.score < 1 * (1 + epsQ)
    nlinarith
  constructor
  · unfold beamStep
    rw [head?_take w hw1]
    apply beamSortDesc_head_of_strict_max _ _ _ hstrict
    rw [hch]
    exact hE_mem
  · intro c hc
    rcases beamStep_mem f L w (endTok v) _ c hc with ⟨c2, hc2, hcc⟩
    simp at hc2
    rw [hc2] at hcc
    exact hok c hcc

/-- With `max_length = 1` the single start candidate is length-capped, so
the frontier never changes. -/
theorem beamStep_len1_fix (f : Step) (w e : Nat) (hw1 : 1 ≤ w) (s0 : Nat) :
    beamStep f 1 w e [⟨[s0], 1⟩] = [⟨[s0], 1⟩] := by
  have hexp : expandCand f 1 w e ⟨[s0], 1⟩ = [⟨[s0], 1⟩] := by
    unfold expandCand
    rw [if_pos]
    left
    simp
  unfold beamStep
  rw [show List.flatten ([(⟨[s0], 1⟩ : Cand)].map (expandCand f 1 w e))
      = expandCand f 1 w e ⟨[s0], 1⟩ from by simp, hexp]
  show (beamSortDesc [⟨[s0], 1⟩]).take w = _
  rw [show beamSortDesc [(⟨[s0], 1⟩ : Cand)] = [⟨[s0], 1⟩] from rfl]
  cases w with
  | zero => omega
  | succ n => simp

theorem beamLoop_len1_fix (f : Step) (w e : Nat) (hw1 : 1 ≤ w) (s0 : Nat) :
    ∀ n, beamLoop f 1 w e n [⟨[s0], 1⟩] = [⟨[s0], 1⟩] := by
  intro n
  induction n with
  | zero => rfl
  | succ m ih =>
    simp only [beamLoop, beamStep_len1_fix f w e hw1 s0]
    split
    · rfl
    · exact ih

/-- C9 (confirmed): under a stepping function that always returns a one-hot
distribution on the vocabulary's END id (with the §3 vocabulary invariants:
the start and end ids decode to `startseq`/`endseq`, and beam width ≥ 1 as
§4.1 requires), decode in both modes returns the empty word sequence, does
not fail, and stays within the `L`-step budget: greedy performs at most `L`
(in fact at most one) stepping calls, and every beam lineage holds at most
`max L 1` ids, i.e. at most `L` stepping calls per lineage. -/
theorem C9_one_hot_end (f : Step) (v : WordIndex) (L w V : Nat)
    (hw1 : 1 ≤ w) (hV : endTok v < V)
    (hf : ∀ p, f p = oneHot V (endTok v))
    (hws : word_for_id v (startTok v) = some "startseq")
    (hwe : word_for_id v (endTok v) = some "endseq") :
    generate_caption_simple (some f) (some v) L = .ok [] ∧
    (greedyRun v f L).2 ≤ L ∧
    generate_caption_beam_search (some f) (some v) L w = .ok [] ∧
    ∀ c ∈ beamFinal v f L w, c.seq.length ≤ max L 1 := by
  have hse : startTok v ≠ endTok v := by
    intro h
    rw [h, hwe] at hws
    simp at hws
  have hgreedy : generate_caption_simple (some f) (some v) L = .ok [] ∧
      (greedyRun v f L).2 ≤ L := by
    cases L with
    | zero =>
      constructor
      · simp [generate_caption_simple, greedyRun, greedyLoop, Except.map, List.filter]
      · simp [greedyRun, greedyLoop]
    | succ n =>
      have hp : (f (padPre (n + 1) (textsToSequences v ["startseq"]))).isEmpty = false := by
        rw [hf]
        exact oneHot_not_isEmpty V _ (by omega)
      have hwmax : word_for_id v
          (argmaxIdx (f (padPre (n + 1) (textsToSequences v ["startseq"])))) = some "endseq" := by
        rw [hf, argmaxIdx_oneHot V _ hV]
        exact hwe
      have hrun : greedyRun v f (n + 1) = (.ok ["startseq"], 1) := by
        rw [greedyRun]
        exact greedyLoop_succ_end v f (n + 1) n ["startseq"] hp hwmax
      constructor
      · simp [generate_caption_simple, hrun, Except.map, List.filter]
      · rw [hrun]
        omega
  refine ⟨hgreedy.1, hgreedy.2, ?_, beamFinal_length v f L w⟩
  have hwords_se : seqToWords v [startTok v, endTok v] = [] := by
    simp [seqToWords, hws, hwe]
  have hwords_s : seqToWords v [startTok v] = [] := by
    simp [seqToWords, hws]
  by_cases hL2 : 2 ≤ L
  · have hInv : oneHotInv v (beamFinal v f L w) := by
      unfold beamFinal
      obtain ⟨m, hm⟩ : ∃ m, L = m + 1 := ⟨L - 1, by omega⟩
      rw [hm]
      simp only [beamLoop]
      split
      · exact beamStep_init v f (m + 1) w V hw1 hV hf (by omega) hse
      · exact beamLoop_oneHotInv v f (m + 1) w V hw1 hV hf m _
          (beamStep_init v f (m + 1) w V hw1 hV hf (by omega) hse)
    rcases hInv with ⟨hhead, _⟩
    simp only [generate_caption_beam_search]
    cases hb : beamFinal v f L w with
    | nil =>
      rw [hb] at hhead
      simp at hhead
    | cons c rest =>
      rw [hb] at hhead
      simp at hhead
      rw [hhead]
      show Except.ok (seqToWords v (endCand v).seq) = Except.ok []
      rw [show (endCand v).seq = [startTok v, endTok v] from rfl, hwords_se]
  · have hfinal : beamFinal v f L w = [⟨[startTok v], 1⟩] := by
      cases L with
      | zero => rfl
      | succ n =>
        cases n with
        | zero => exact beamLoop_len1_fix f w (endTok v) hw1 (startTok v) 1
        | succ m => omega
    simp only [generate_caption_beam_search, hfinal]
    show Except.ok (seqToWords v [startTok v]) = Except.ok []
    rw [hwords_s]

/-- Witness for C9, at `vSE`, `endStep`, `L = 4`, `w = 2`, `V = 3`. -/
theorem C9_witness :
    generate_caption_simple (some endStep) (some vSE) 4 = .ok [] ∧
    generate_caption_beam_search (some endStep) (some vSE) 4 2 = .ok [] := by
  have h := C9_one_hot_end endStep vSE 4 2 3 (by omega) (by decide)
    (fun p => by rw [show endTok vSE = 2 from by decide]; rfl)
    (by decide) (by decide)
  exact ⟨h.1, h.2.2.1⟩

/-! ## Vocabulary round-trip lemmas -/

theorem wordIndexLookup_mem (v : WordIndex) (w : String) (i : Nat)
    (h : wordIndexLookup v w = some i) : (w, i) ∈ v := by
  unfold wordIndexLookup at h
  cases hf : v.find? (fun p => p.1 == w) with
  | none => rw [hf] at h; simp at h
  | some p =>
    rw [hf] at h
    simp at h
    have hp := List.mem_of_find?_eq_some hf
    have hw := List.find?_some hf
    simp at hw
    rw [show (w, i) = p from by rw [← hw, ← h]]
    exact hp

theorem word_for_id_mem (v : WordIndex) (w : String) (i : Nat)
    (h : word_for_id v i = some w) : (w, i) ∈ v := by
  unfold word_for_id at h
  cases hf : v.find? (fun p => p.2 == i) with
  | none => rw [hf] at h; simp at h
  | some p =>
    rw [hf] at h
    simp at h
    have hp := List.mem_of_find?_eq_some hf
    have hi := List.find?_some hf
    simp at hi
    rw [show (w, i) = p from by rw [← hi, ← h]]
    exact hp

theorem mem_wordIndexLookup (v : WordIndex) (hnodup : (v.map Prod.fst).Nodup) :
    ∀ (w : String) (i : Nat), (w, i) ∈ v → wordIndexLookup v w = some i := by
  induction v with
  | nil => intro w i h; simp at h
  | cons p t ih =>
    intro w i h
    simp only [List.map_cons, List.nodup_cons] at hnodup
    rcases List.mem_cons.mp h with hh | ht
    · unfold wordIndexLookup
      rw [List.find?_cons_of_pos _ (by rw [← hh]; simp)]
      rw [← hh]
      rfl
    · by_cases hpw : p.1 = w
      · exfalso
        apply hnodup.1
        rw [hpw]
        exact List.mem_map.mpr ⟨(w, i), ht, rfl⟩
      · unfold wordIndexLookup
        rw [List.find?_cons_of_neg _ (by simp [hpw])]
        exact ih hnodup.2 w i ht

theorem mem_word_for_id (v : WordIndex) (hnodup : (v.map Prod.snd).Nodup) :
    ∀ (w : String) (i : Nat), (w, i) ∈ v → word_for_id v i = some w := by
  induction v with
  | nil => intro w i h; simp at h
  | cons p t ih =>
    intro w i h
    simp only [List.map_cons, List.nodup_cons] at hnodup
    rcases List.mem_cons.mp h with hh | ht
    · unfold word_for_id
      rw [List.find?_cons_of_pos _ (by rw [← hh]; simp)]
      rw [← hh]
      rfl
    · by_cases hpi : p.2 = i
      · exfalso
        apply hnodup.1
        rw [hpi]
        exact List.mem_map.mpr ⟨(w, i), ht, rfl⟩
      · unfold word_for_id
        rw [List.find?_cons_of_neg _ (by simp [hpi])]
        exact ih hnodup.2 w i ht

theorem lookup_of_mem_keys (v : WordIndex) (w : String)
    (h : w ∈ v.map Prod.fst) : ∃ i, wordIndexLookup v w = some i := by
  induction v with
  | nil => simp at h
  | cons p t ih =>
    simp only [List.map_cons, List.mem_cons] at h
    by_cases hpw : p.1 = w
    · exact ⟨p.2, by unfold wordIndexLookup; rw [List.find?_cons_of_pos _ (by simp [hpw])]; rfl⟩
    · rcases h with hh | ht
      · exact absurd hh.symm hpw
      · rcases ih ht with ⟨i, hi⟩
        refine ⟨i, ?_⟩
        unfold wordIndexLookup at hi ⊢
        rw [List.find?_cons_of_neg _ (by simp [hpw])]
        exact hi

/-! ## Text-to-id and conversion lemmas -/

theorem t2s_append (v : WordIndex) (t : List String) (u : List String) :
    textsToSequences v (t ++ u) = textsToSequences v t ++ textsToSequences v u := by
  unfold textsToSequences
  exact List.filterMap_append t u (wordIndexLookup v)

theorem t2s_length_good (v : WordIndex) :
    ∀ t : List String, goodWords v t → (textsToSequences v t).length = t.length := by
  intro t
  induction t with
  | nil => intro _; rfl
  | cons w t ih =>
    intro hg
    rcases hg w (by simp) with ⟨_, i, hi⟩
    have ht : goodWords v t := fun x hx => hg x (List.mem_cons_of_mem w hx)
    unfold textsToSequences at ih ⊢
    rw [List.filterMap_cons, hi]
    simp [ih ht]

/-- Converting the ids of an all-good text and then any continuation: the
good text decodes to its words (with `startseq` dropped) and conversion
continues into the tail. -/
theorem t2s_conv (v : WordIndex)
    (hrt2 : ∀ (w : String) (i : Nat), wordIndexLookup v w = some i → word_for_id v i = some w) :
    ∀ (t : List String), goodWords v t → ∀ rest : List Nat,
      seqToWords v (textsToSequences v t ++ rest)
        = t.filter (fun x => x != "startseq") ++ seqToWords v rest := by
  intro t
  induction t with
  | nil => intro _ rest; simp [textsToSequences]
  | cons w t ih =>
    intro hg rest
    rcases hg w (by simp) with ⟨hne, i, hi⟩
    have ht : goodWords v t := fun x hx => hg x (List.mem_cons_of_mem w hx)
    have hw : word_for_id v i = some w := hrt2 w i hi
    unfold textsToSequences
    rw [List.filterMap_cons, hi]
    show seqToWords v (i :: (textsToSequences v t ++ rest)) = _
    rw [seqToWords, hw]
    show (if w = "endseq" then []
      else if w = "startseq" then seqToWords v (textsToSequences v t ++ rest)
      else w :: seqToWords v (textsToSequences v t ++ rest)) = _
    by_cases hws : w = "startseq"
    · rw [if_neg hne, if_pos hws, ih ht rest]
      simp [List.filter, hws]
    · rw [if_neg hne, if_neg hws, ih ht rest]
      simp [List.filter_cons, hws]

theorem t2s_last_ne_end (v : WordIndex)
    (hrt2 : ∀ (w : String) (i : Nat), wordIndexLookup v w = some i → word_for_id v i = some w)
    (hwe : word_for_id v (endTok v) = some "endseq") :
    ∀ t : List String, goodWords v t → t ≠ [] →
      (textsToSequences v t).getLastD 0 ≠ endTok v := by
  intro t
  induction t with
  | nil => intro _ h; exact absurd rfl h
  | cons w t ih =>
    intro hg _
    rcases hg w (by simp) with ⟨hne, i, hi⟩
    have ht : goodWords v t := fun x hx => hg x (List.mem_cons_of_mem w hx)
    have hwi : word_for_id v i = some w := hrt2 w i hi
    have hine : i ≠ endTok v := by
      intro hie
      rw [hie, hwe] at hwi
      exact hne (Option.some.inj hwi).symm
    unfold textsToSequences
    rw [List.filterMap_cons, hi]
    cases t with
    | nil => simpa [textsToSequences] using hine
    | cons w2 t2 =>
      have hne2 : textsToSequences v (w2 :: t2) ≠ [] := by
        intro habs
        have hl := t2s_length_good v (w2 :: t2) ht
        rw [habs] at hl
        simp at hl
      show (i :: textsToSequences v (w2 :: t2)).getLastD 0 ≠ endTok v
      cases hgl : (textsToSequences v (w2 :: t2)).getLast? with
      | none =>
        rw [List.getLast?_eq_none_iff] at hgl
        exact absurd hgl hne2
      | some a =>
        have hmain : (i :: textsToSequences v (w2 :: t2)).getLastD 0 = a := by
          rw [List.getLastD_cons, List.getLastD_eq_getLast?, hgl]
          rfl
        have htail : (textsToSequences v (w2 :: t2)).getLastD 0 = a := by
          rw [List.getLastD_eq_getLast?, hgl]
          rfl
        rw [hmain, ← htail]
        exact ih ht (by simp)

/-! ## Width-1 beam dynamics -/

theorem beamStep_carry (f : Step) (L w e : Nat) (hw1 : 1 ≤ w) (c : Cand)
    (hc : c.seq.length ≥ L ∨ c.seq.getLastD 0 = e) :
    beamStep f L w e [c] = [c] := by
  have hexp : expandCand f L w e c = [c] := by
    unfold expandCand
    rw [if_pos hc]
  unfold beamStep
  rw [show List.flatten ([c].map (expandCand f L w e)) = expandCand f L w e c from by simp,
    hexp]
  rw [show beamSortDesc [c] = [c] from rfl]
  cases w with
  | zero => omega
  | succ n => simp

theorem beamStep_expand1 (f : Step) (L e : Nat) (c : Cand) (i : Nat)
    (hlen : c.seq.length < L) (hlast : c.seq.getLastD 0 ≠ e)
    (hum : uniqueMaxAt (f (padPost L c.seq)) i) :
    beamStep f L 1 e [c]
      = [⟨c.seq ++ [i], c.score * (((f (padPost L c.seq))[i]?).getD 0 + epsQ)⟩] := by
  have hexp : expandCand f L 1 e c
      = [⟨c.seq ++ [i], c.score * (((f (padPost L c.seq))[i]?).getD 0 + epsQ)⟩] := by
    unfold expandCand
    rw [if_neg (by push_neg; exact ⟨by omega, hlast⟩)]
    show (lastSlice 1 (argsortIdx (f (padPost L c.seq)))).map
        (fun idx => Cand.mk (c.seq ++ [idx])
          (c.score * (((f (padPost L c.seq))[idx]?).getD 0 + epsQ)))
      = [Cand.mk (c.seq ++ [i])
          (c.score * (((f (padPost L c.seq))[i]?).getD 0 + epsQ))]
    rw [lastSlice_one _ i (argsortIdx_getLast_of_uniqueMax _ i hum)]
    rfl
  unfold beamStep
  rw [show List.flatten ([c].map (expandCand f L 1 e)) = expandCand f L 1 e c from by simp,
    hexp]
  rfl

/-- With width 1 and total unique-max distributions, the frontier stays a
singleton and the sequence only ever grows. -/
theorem beamLoop_width1_ext (f : Step) (L e : Nat)
    (hmax : ∀ p, ∃ i, uniqueMaxAt (f p) i) :
    ∀ (n : Nat) (c : Cand), ∃ d ext,
      beamLoop f L 1 e n [c] = [d] ∧ d.seq = c.seq ++ ext := by
  intro n
  induction n with
  | zero => intro c; exact ⟨c, [], rfl, by simp⟩
  | succ m ih =>
    intro c
    by_cases hcarry : c.seq.length ≥ L ∨ c.seq.getLastD 0 = e
    · simp only [beamLoop]
      rw [beamStep_carry f L 1 e (le_refl 1) c hcarry]
      split
      · exact ⟨c, [], rfl, by simp⟩
      · exact ih c
    · push_neg at hcarry
      rcases hmax (padPost L c.seq) with ⟨i, hum⟩
      simp only [beamLoop]
      rw [beamStep_expand1 f L e c i (by omega) hcarry.2 hum]
      split
      · exact ⟨_, [i], rfl, rfl⟩
      · rcases ih ⟨c.seq ++ [i], c.score * (((f (padPost L c.seq))[i]?).getD 0 + epsQ)⟩
          with ⟨d, ext, hd, hext⟩
        refine ⟨d, [i] ++ ext, hd, ?_⟩
        rw [hext]
        simp

/-- The width-1 beam loop simulates the greedy loop step by step, given a
padding-agnostic stepping function with unique maxima, a round-tripping
vocabulary, and a greedy run that stops before exhausting its budget. -/
theorem beam1_greedy_sim (f : Step) (v : WordIndex) (L : Nat)
    (hpad : ∀ s, f (padPre L s) = f (padPost L s))
    (hmax : ∀ p, ∃ i, uniqueMaxAt (f p) i)
    (hrt1 : ∀ (w : String) (i : Nat), word_for_id v i = some w →
      wordIndexLookup v w = some i)
    (hrt2 : ∀ (w : String) (i : Nat), wordIndexLookup v w = some i →
      word_for_id v i = some w)
    (hwe : word_for_id v (endTok v) = some "endseq")
    (hle : wordIndexLookup v "endseq" = some (endTok v)) :
    ∀ (n : Nat) (t : List String) (sc : ℚ),
      goodWords v t → t ≠ [] → t.length + n = L + 1 →
      (∀ ws, (greedyLoop v f L n t).1 = .ok ws → ws.length ≤ L) →
      ∃ fin c rest,
        (greedyLoop v f L n t).1 = .ok fin ∧
        beamLoop f L 1 (endTok v) n [⟨textsToSequences v t, sc⟩] = c :: rest ∧
        seqToWords v c.seq = fin.filter (fun x => x != "startseq") := by
  intro n
  induction n with
  | zero =>
    intro t sc hg _ _ _
    refine ⟨t, ⟨textsToSequences v t, sc⟩, [], by simp [greedyLoop], rfl, ?_⟩
    have h := t2s_conv v hrt2 t hg []
    simpa [seqToWords] using h
  | succ m ih =>
    intro t sc hg htne hlen hhalt
    have hpred : f (padPre L (textsToSequences v t)) = f (padPost L (textsToSequences v t)) :=
      hpad _
    rcases hmax (padPost L (textsToSequences v t)) with ⟨i, hum⟩
    have hum_g : uniqueMaxAt (f (padPre L (textsToSequences v t))) i := by
      rw [hpred]; exact hum
    have hnonempty : (f (padPre L (textsToSequences v t))).isEmpty = false := by
      rcases hum_g with ⟨hi, _⟩
      cases hfp : f (padPre L (textsToSequences v t)) with
      | nil => rw [hfp] at hi; simp at hi
      | cons a l => simp
    have hargmax : argmaxIdx (f (padPre L (textsToSequences v t))) = i :=
      argmaxIdx_of_uniqueMax _ i hum_g
    have hlen_t2s : (textsToSequences v t).length = t.length := t2s_length_good v t hg
    have hlast_ne : (textsToSequences v t).getLastD 0 ≠ endTok v :=
      t2s_last_ne_end v hrt2 hwe t hg htne
    by_cases hcap : (textsToSequences v t).length ≥ L
    · -- the candidate is length-capped: the beam carries it for the rest of
      -- the run, and the greedy loop must stop now (else it would overrun)
      have hm0 : m = 0 := by
        rw [hlen_t2s] at hcap
        omega
      subst hm0
      have htL : t.length = L := by omega
      have hbeam : beamLoop f L 1 (endTok v) 1 [⟨textsToSequences v t, sc⟩]
          = [⟨textsToSequences v t, sc⟩] := by
        simp only [beamLoop]
        rw [beamStep_carry f L 1 (endTok v) (le_refl 1) _ (Or.inl hcap)]
        split <;> rfl
      have hconv : seqToWords v (textsToSequences v t)
          = t.filter (fun x => x != "startseq") := by
        have h := t2s_conv v hrt2 t hg []
        simpa [seqToWords] using h
      cases hword : word_for_id v (argmaxIdx (f (padPre L (textsToSequences v t)))) with
      | none =>
        rw [greedyLoop_succ_none v f L 0 t hnonempty hword]
        exact ⟨t, _, [], rfl, hbeam, hconv⟩
      | some w =>
        by_cases hwend : w = "endseq"
        · rw [hwend] at hword
          rw [greedyLoop_succ_end v f L 0 t hnonempty hword]
          exact ⟨t, _, [], rfl, hbeam, hconv⟩
        · exfalso
          have hgw := greedyLoop_succ_word v f L 0 t w hnonempty hword hwend
          have : (greedyLoop v f L 1 t).1 = .ok (t ++ [w]) := by
            rw [hgw]
            simp [greedyLoop]
          have hbad := hhalt (t ++ [w]) this
          simp at hbad
          omega
    · -- the candidate still expands
      push_neg at hcap
      have hstep : beamStep f L 1 (endTok v) [⟨textsToSequences v t, sc⟩]
          = [⟨textsToSequences v t ++ [i],
              sc * (((f (padPost L (textsToSequences v t)))[i]?).getD 0 + epsQ)⟩] :=
        beamStep_expand1 f L (endTok v) ⟨textsToSequences v t, sc⟩ i hcap hlast_ne hum
      have hloop : beamLoop f L 1 (endTok v) (m + 1) [⟨textsToSequences v t, sc⟩]
          = if allEnded (endTok v)
                [⟨textsToSequences v t ++ [i],
                  sc * (((f (padPost L (textsToSequences v t)))[i]?).getD 0 + epsQ)⟩]
            then [⟨textsToSequences v t ++ [i],
                  sc * (((f (padPost L (textsToSequences v t)))[i]?).getD 0 + epsQ)⟩]
            else beamLoop f L 1 (endTok v) m
                [⟨textsToSequences v t ++ [i],
                  sc * (((f (padPost L (textsToSequences v t)))[i]?).getD 0 + epsQ)⟩] := by
        simp only [beamLoop, hstep]
      cases hword : word_for_id v (argmaxIdx (f (padPre L (textsToSequences v t)))) with
      | none =>
        -- unknown id: greedy stops here; the beam wanders on, but the
        -- conversion truncates at the unknown id
        have hine : i ≠ endTok v := by
          intro hie
          rw [hargmax, hie, hwe] at hword
          simp at hword
        have hAE : allEnded (endTok v)
            [⟨textsToSequences v t ++ [i],
              sc * (((f (padPost L (textsToSequences v t)))[i]?).getD 0 + epsQ)⟩] = false := by
          simp [allEnded, List.getLastD_concat]
          exact hine
        rw [hAE, if_neg (by simp)] at hloop
        rcases beamLoop_width1_ext f L (endTok v) hmax m
            ⟨textsToSequences v t ++ [i],
              sc * (((f (padPost L (textsToSequences v t)))[i]?).getD 0 + epsQ)⟩
          with ⟨d, ext, hd, hext⟩
        rw [greedyLoop_succ_none v f L m t hnonempty hword]
        refine ⟨t, d, [], rfl, by rw [hloop, hd], ?_⟩
        have hdseq : d.seq = textsToSequences v t ++ (i :: ext) := by
          rw [hext]
          simp
        rw [hdseq, t2s_conv v hrt2 t hg (i :: ext)]
        rw [hargmax] at hword
        rw [seqToWords, hword]
        simp
      | some w =>
        by_cases hwend : w = "endseq"
        · -- END chosen: both loops stop with the same words
          have hie : i = endTok v := by
            rw [hargmax, hwend] at hword
            have h1 := hrt1 "endseq" i hword
            rw [hle] at h1
            exact (Option.some.inj h1).symm
          have hAE : allEnded (endTok v)
              [⟨textsToSequences v t ++ [i],
                sc * (((f (padPost L (textsToSequences v t)))[i]?).getD 0 + epsQ)⟩] = true := by
            simp [allEnded, List.getLastD_concat, hie]
          rw [hAE, if_pos rfl] at hloop
          rw [hwend] at hword
          rw [greedyLoop_succ_end v f L m t hnonempty hword]
          refine ⟨t, _, [], rfl, hloop, ?_⟩
          rw [t2s_conv v hrt2 t hg [i]]
          rw [hargmax] at hword
          rw [seqToWords, hword]
          simp
        · -- an ordinary word: both loops advance in lockstep
          have hword2 : word_for_id v i = some w := by
            rw [hargmax] at hword
            exact hword
          have hine : i ≠ endTok v := by
            intro hie
            rw [hie, hwe] at hword2
            exact hwend (Option.some.inj hword2).symm
          have hlk : wordIndexLookup v w = some i := hrt1 w i hword2
          have hgood2 : goodWords v (t ++ [w]) := by
            intro x hx
            rcases List.mem_append.mp hx with hxt | hxw
            · exact hg x hxt
            · simp at hxw
              rw [hxw]
              exact ⟨hwend, i, hlk⟩
          have ht2s2 : textsToSequences v (t ++ [w]) = textsToSequences v t ++ [i] := by
            rw [t2s_append]
            congr 1
            unfold textsToSequences
            rw [List.filterMap_cons, hlk]
            rfl
          have hAE : allEnded (endTok v)
              [⟨textsToSequences v t ++ [i],
                sc * (((f (padPost L (textsToSequences v t)))[i]?).getD 0 + epsQ)⟩] = false := by
            simp [allEnded, List.getLastD_concat]
            exact hine
          rw [hAE, if_neg (by simp)] at hloop
          have hgw := greedyLoop_succ_word v f L m t w hnonempty hword hwend
          have hhalt2 : ∀ ws, (greedyLoop v f L m (t ++ [w])).1 = .ok ws →
              ws.length ≤ L := by
            intro ws hws
            apply hhalt ws
            rw [hgw]
            exact hws
          rcases ih (t ++ [w])
              (sc * (((f (padPost L (textsToSequences v t)))[i]?).getD 0 + epsQ))
              hgood2 (by simp) (by simp at hlen ⊢; omega) hhalt2
            with ⟨fin, c, rest, hgr, hbl, hcv⟩
          refine ⟨fin, c, rest, ?_, ?_, hcv⟩
          · rw [hgw]
            exact hgr
          · rw [hloop, ← ht2s2]
            exact hbl

/-- C3 (amended): beam-search decode with `beam_width = 1` returns the same
word sequence as greedy decode, provided (i) the vocabulary is duplicate-free
in both words and ids and contains `startseq`/`endseq` (§3 invariants),
(ii) the stepping function gives the same answer on the pre-padded input
greedy builds and the post-padded input beam search builds, (iii) every
returned distribution has a unique maximum (no tie-dependence), and (iv)
greedy halts before exhausting its `L`-step budget.  Without (iv) the two
modes genuinely differ (see the counterexample); (ii) and (iii) are needed
because the source pads the model input differently in the two modes and
breaks argmax ties in opposite directions. -/
theorem C3_amended (f : Step) (v : WordIndex) (L : Nat)
    (hnw : (v.map Prod.fst).Nodup) (hni : (v.map Prod.snd).Nodup)
    (hsk : "startseq" ∈ v.map Prod.fst) (hek : "endseq" ∈ v.map Prod.fst)
    (hpad : ∀ s, f (padPre L s) = f (padPost L s))
    (hmax : ∀ p, ∃ i, uniqueMaxAt (f p) i)
    (hhalt : ∀ ws, (greedyRun v f L).1 = .ok ws → ws.length ≤ L) :
    generate_caption_beam_search (some f) (some v) L 1
      = generate_caption_simple (some f) (some v) L := by
  have hrt1 : ∀ (w : String) (i : Nat), word_for_id v i = some w →
      wordIndexLookup v w = some i :=
    fun w i h => mem_wordIndexLookup v hnw w i (word_for_id_mem v w i h)
  have hrt2 : ∀ (w : String) (i : Nat), wordIndexLookup v w = some i →
      word_for_id v i = some w :=
    fun w i h => mem_word_for_id v hni w i (wordIndexLookup_mem v w i h)
  rcases lookup_of_mem_keys v "startseq" hsk with ⟨s0, hs0⟩
  rcases lookup_of_mem_keys v "endseq" hek with ⟨e0, he0⟩
  have hls : wordIndexLookup v "startseq" = some (startTok v) := by
    unfold startTok
    rw [hs0]
    rfl
  have hle : wordIndexLookup v "endseq" = some (endTok v) := by
    unfold endTok
    rw [he0]
    rfl
  have hwe : word_for_id v (endTok v) = some "endseq" := hrt2 _ _ hle
  have hginit : goodWords v ["startseq"] := by
    intro w hw
    simp at hw
    rw [hw]
    exact ⟨by decide, startTok v, hls⟩
  have hinit_t2s : textsToSequences v ["startseq"] = [startTok v] := by
    unfold textsToSequences
    rw [List.filterMap_cons, hls]
    rfl
  rcases beam1_greedy_sim f v L hpad hmax hrt1 hrt2 hwe hle L ["startseq"] 1
      hginit (by simp) (by simp; omega) hhalt
    with ⟨fin, c, rest, hgr, hbl, hcv⟩
  simp only [generate_caption_beam_search, generate_caption_simple]
  unfold beamFinal
  rw [show (⟨[startTok v], 1⟩ : Cand) = ⟨textsToSequences v ["startseq"], 1⟩ from by
    rw [hinit_t2s], hbl]
  show Except.ok (seqToWords v c.seq) = _
  rw [hcv]
  rw [show greedyRun v f L = greedyLoop v f L L ["startseq"] from rfl, hgr]
  rfl

/-- Witness for C3 (amended): a three-word vocabulary and a constant
distribution whose unique maximum is the END token; greedy halts at once. -/
theorem C3_witness :
    generate_caption_beam_search
        (some (fun _ => [0, 1/4, 1/2, 1/8]))
        (some [("startseq", 1), ("endseq", 2), ("a", 3)]) 3 1
      = generate_caption_simple
        (some (fun _ => [0, 1/4, 1/2, 1/8]))
        (some [("startseq", 1), ("endseq", 2), ("a", 3)]) 3 := by
  have hum : ∀ p : List Nat,
      ∃ i, uniqueMaxAt ((fun (_ : List Nat) => [(0:ℚ), 1/4, 1/2, 1/8]) p) i := by
    intro p
    refine ⟨2, by norm_num, ?_⟩
    intro j hj hne
    simp only [List.length_cons, List.length_nil] at hj
    interval_cases j
    · show (0:ℚ) < _
      norm_num [List.get]
    · show (1/4:ℚ) < _
      norm_num [List.get]
    · exact absurd rfl hne
    · show (1/8:ℚ) < _
      norm_num [List.get]
  have hrun : greedyRun [("startseq", 1), ("endseq", 2), ("a", 3)]
      (fun _ => [0, 1/4, 1/2, 1/8]) 3 = (.ok ["startseq"], 1) := by
    have hp : ((fun (_ : List Nat) => [(0:ℚ), 1/4, 1/2, 1/8])
        (padPre 3 (textsToSequences [("startseq", 1), ("endseq", 2), ("a", 3)]
          ["startseq"]))).isEmpty = false := rfl
    have hw : word_for_id [("startseq", 1), ("endseq", 2), ("a", 3)]
        (argmaxIdx ((fun (_ : List Nat) => [(0:ℚ), 1/4, 1/2, 1/8])
          (padPre 3 (textsToSequences [("startseq", 1), ("endseq", 2), ("a", 3)]
            ["startseq"])))) = some "endseq" := by
      have ha : argmaxIdx [(0:ℚ), 1/4, 1/2, 1/8] = 2 := by
        norm_num [argmaxIdx, listMax, max_def]
      show word_for_id _ (argmaxIdx [(0:ℚ), 1/4, 1/2, 1/8]) = _
      rw [ha]
      decide
    rw [greedyRun]
    exact greedyLoop_succ_end _ _ 3 2 ["startseq"] hp hw
  apply C3_amended
  · decide
  · decide
  · decide
  · decide
  · intro s
    rfl
  · exact hum
  · intro ws hws
    rw [hrun] at hws
    simp at hws
    rw [← hws]
    decide
